import Mathlib

/-
  Verification development for the SawitDB engine.

  Shallow embedding of the parts of the code base that the claims C1..C10
  concern: the thread-pool router (src/server/DatabaseRegistry.js), the
  query parser (src/modules/QueryParser.js), the table scanner and the
  insert executor (WowoEngine.js / InsertExecutor), the index manager
  (src/services/IndexManager.js), the schema manager (SchemaManager) and
  the network front end (SawitServer).

  JavaScript is embedded as follows: machine numbers are Nat/Int/Rat,
  `undefined` is `Option.none`, thrown exceptions are `Except.error`,
  objects are association lists, and unbounded `while` loops are given an
  explicit fuel parameter (`none` = the loop has not finished within the
  fuel, so `∀ fuel, ... = none` states non-termination).
-/

/-! ## JavaScript-like values -/

/-- A JavaScript primitive value as produced by the query parser and
stored in rows: `null`, booleans, numbers (modelled as `Rat`) and
strings. -/
inductive JVal where
  | null
  | bool (b : Bool)
  | num (q : Rat)
  | str (s : String)
deriving DecidableEq, Repr

/-! ## C1 — ThreadPool routing (src/src/server/DatabaseRegistry.js) -/

/-- One step of the `for` loop of `ThreadPool._getBestWorker`
(DatabaseRegistry.js lines 151-167).  A worker slot is `none` while the
worker is restarting (`this.workers[i]` is unset) and `some load` when
present with `this.activeTasks[i] = load`.  The loop state is the pair
`(minLoad, bestIndex)`; `minLoad = none` models the initial `Infinity`. -/
def getBestWorkerLoop : Nat → List (Option Nat) → Option Nat → Nat → Option Nat × Nat
  | _, [], minLoad, best => (minLoad, best)
  | i, none :: rest, minLoad, best => getBestWorkerLoop (i + 1) rest minLoad best
  | i, some load :: rest, none, _ => getBestWorkerLoop (i + 1) rest (some load) i
  | i, some load :: rest, some m, best =>
      if load < m then getBestWorkerLoop (i + 1) rest (some load) i
      else getBestWorkerLoop (i + 1) rest (some m) best

/-- `ThreadPool._getBestWorker`: least-busy strategy over the present
workers, returning the final `bestIndex` (initially `0`). -/
def getBestWorker (workers : List (Option Nat)) : Nat :=
  (getBestWorkerLoop 0 workers none 0).2

/-- The routing-relevant state of the thread pool together with the
per-worker caches of open database handles (`dbCache` in SawitWorker.js):
`openPaths.get! w` is the list of database paths currently open in worker
`w`. -/
structure PoolState where
  workers : List (Option Nat)
  openPaths : List (List String)

/-- `ThreadPool.execute` (DatabaseRegistry.js lines 169-209) chooses the
worker for a query: `const workerIndex = this._getBestWorker();` — the
database path passed to `execute` plays no part in the choice. -/
def routeQuery (s : PoolState) (dbPath : String) : Nat :=
  let _ := dbPath
  getBestWorker s.workers

/-- The sticky-routing property claimed by the spec: a query against a
path that is open in worker `w` is routed to `w`. -/
def stickyRouting (s : PoolState) : Prop :=
  ∀ w p, p ∈ s.openPaths.getD w [] → routeQuery s p = w

/-- A concrete pool: two live workers, worker 0 owns `db1.sawit` and has
one task in flight, worker 1 is idle. -/
def c1State : PoolState :=
  { workers := [some 1, some 0], openPaths := [["/data/db1.sawit"], []] }

/-- Once `minLoad` is finite, the loop returns a final `(some ml, bl)`
where `ml` is the least load among the accumulator and the remaining
present workers, and `bl` is either the carried `best` or the absolute
index of the first strictly-smaller load. -/
theorem getBestWorkerLoop_some (ws : List (Option Nat)) : ∀ (i m best : Nat),
    ∃ ml bl, getBestWorkerLoop i ws (some m) best = (some ml, bl)
      ∧ ml ≤ m
      ∧ (∀ k lk, ws.get? k = some (some lk) → ml ≤ lk)
      ∧ ((ml = m ∧ bl = best) ∨
         (∃ k, ws.get? k = some (some ml) ∧ bl = i + k ∧ ml < m ∧
           (∀ j lj, j < k → ws.get? j = some (some lj) → ml < lj))) := by
  induction ws with
  | nil =>
      intro i m best
      exact ⟨m, best, rfl, le_refl m, by intro k lk hk; simp at hk,
        Or.inl ⟨rfl, rfl⟩⟩
  | cons w rest ih =>
      intro i m best
      cases w with
      | none =>
          obtain ⟨ml, bl, heq, hle, hall, hdisj⟩ := ih (i + 1) m best
          refine ⟨ml, bl, heq, hle, ?_, ?_⟩
          · intro k lk hk
            cases k with
            | zero => simp at hk
            | succ k => exact hall k lk (by simpa using hk)
          · rcases hdisj with h | ⟨k, hk, hbl, hlt, hfirst⟩
            · exact Or.inl h
            · refine Or.inr ⟨k + 1, by simpa using hk, by omega, hlt, ?_⟩
              intro j lj hj hje
              cases j with
              | zero => simp at hje
              | succ j => exact hfirst j lj (by omega) (by simpa using hje)
      | some l =>
          by_cases hcmp : l < m
          · obtain ⟨ml, bl, heq, hle, hall, hdisj⟩ := ih (i + 1) l i
            refine ⟨ml, bl, ?_, by omega, ?_, ?_⟩
            · simpa [getBestWorkerLoop, hcmp] using heq
            · intro k lk hk
              cases k with
              | zero =>
                  simp at hk
                  omega
              | succ k => exact hall k lk (by simpa using hk)
            · rcases hdisj with ⟨hml, hbl⟩ | ⟨k, hk, hbl, hlt, hfirst⟩
              · refine Or.inr ⟨0, by simp [hml], by omega, by omega, ?_⟩
                intro j lj hj hje
                omega
              · refine Or.inr ⟨k + 1, by simpa using hk, by omega, by omega, ?_⟩
                intro j lj hj hje
                cases j with
                | zero =>
                    simp at hje
                    omega
                | succ j => exact hfirst j lj (by omega) (by simpa using hje)
          · obtain ⟨ml, bl, heq, hle, hall, hdisj⟩ := ih (i + 1) m best
            refine ⟨ml, bl, ?_, hle, ?_, ?_⟩
            · simpa [getBestWorkerLoop, hcmp] using heq
            · intro k lk hk
              cases k with
              | zero =>
                  simp at hk
                  omega
              | succ k => exact hall k lk (by simpa using hk)
            · rcases hdisj with h | ⟨k, hk, hbl, hlt, hfirst⟩
              · exact Or.inl h
              · refine Or.inr ⟨k + 1, by simpa using hk, by omega, hlt, ?_⟩
                intro j lj hj hje
                cases j with
                | zero =>
                    simp at hje
                    omega
                | succ j => exact hfirst j lj (by omega) (by simpa using hje)

/-- Starting from the initial `Infinity`, the loop either reports that no
worker is present (and returns the initial `best`) or returns the first
index holding the minimum load among present workers. -/
theorem getBestWorkerLoop_none (ws : List (Option Nat)) : ∀ (i best : Nat),
    (getBestWorkerLoop i ws none best = (none, best) ∧
      ∀ k lk, ws.get? k ≠ some (some lk)) ∨
    (∃ ml bl, getBestWorkerLoop i ws none best = (some ml, bl)
      ∧ (∀ k lk, ws.get? k = some (some lk) → ml ≤ lk)
      ∧ ∃ k, ws.get? k = some (some ml) ∧ bl = i + k ∧
          (∀ j lj, j < k → ws.get? j = some (some lj) → ml < lj)) := by
  induction ws with
  | nil =>
      intro i best
      exact Or.inl ⟨rfl, by intro k lk hk; simp at hk⟩
  | cons w rest ih =>
      intro i best
      cases w with
      | none =>
          rcases ih (i + 1) best with ⟨heq, hno⟩ | ⟨ml, bl, heq, hall, k, hk, hbl, hfirst⟩
          · refine Or.inl ⟨heq, ?_⟩
            intro k lk hk
            cases k with
            | zero => simp at hk
            | succ k => exact hno k lk (by simpa using hk)
          · refine Or.inr ⟨ml, bl, heq, ?_, k + 1, by simpa using hk, by omega, ?_⟩
            · intro k lk hk
              cases k with
              | zero => simp at hk
              | succ k => exact hall k lk (by simpa using hk)
            · intro j lj hj hje
              cases j with
              | zero => simp at hje
              | succ j => exact hfirst j lj (by omega) (by simpa using hje)
      | some l =>
          obtain ⟨ml, bl, heq, hle, hall, hdisj⟩ := getBestWorkerLoop_some rest (i + 1) l i
          refine Or.inr ⟨ml, bl, heq, ?_, ?_⟩
          · intro k lk hk
            cases k with
            | zero =>
                simp at hk
                omega
            | succ k => exact hall k lk (by simpa using hk)
          · rcases hdisj with ⟨hml, hbl⟩ | ⟨k, hk, hbl, hlt, hfirst⟩
            · exact ⟨0, by simp [hml], by omega, by intro j lj hj hje; omega⟩
            · refine ⟨k + 1, by simpa using hk, by omega, ?_⟩
              intro j lj hj hje
              cases j with
              | zero =>
                  simp at hje
                  omega
              | succ j => exact hfirst j lj (by omega) (by simpa using hje)

/-- C1 (amended): dispatch is least-busy but not sticky.  If at least one
worker is present, `ThreadPool.execute` routes the query to the present
worker with the smallest active-task count, ties broken by the lowest
worker id — and the chosen worker does not depend on the database path at
all, so a path already open in another worker is not honoured. -/
theorem c1_least_busy_routing (s : PoolState) (p : String) (i l : Nat)
    (h : s.workers.get? i = some (some l)) :
    ∃ ml, s.workers.get? (routeQuery s p) = some (some ml)
      ∧ (∀ k lk, s.workers.get? k = some (some lk) → ml ≤ lk)
      ∧ (∀ j lj, j < routeQuery s p → s.workers.get? j = some (some lj) → ml < lj)
      ∧ (∀ q, routeQuery s q = routeQuery s p) := by
  rcases getBestWorkerLoop_none s.workers 0 0 with ⟨heq, hno⟩ |
    ⟨ml, bl, heq, hall, k, hk, hbl, hfirst⟩
  · exact absurd h (hno i l)
  · have hroute : routeQuery s p = bl := by
      simp [routeQuery, getBestWorker, heq]
    refine ⟨ml, ?_, hall, ?_, ?_⟩
    · rw [hroute, hbl]
      simpa using hk
    · intro j lj hj hje
      exact hfirst j lj (by omega) hje
    · intro q
      rfl

/-- C1 witness: the amended theorem applied to the concrete pool
`c1State` (worker 0 present with load 1). -/
theorem c1_least_busy_routing_witness :
    c1State.workers.get? 0 = some (some 1) ∧
    ∃ ml, c1State.workers.get? (routeQuery c1State "/data/db1.sawit") = some (some ml)
      ∧ (∀ k lk, c1State.workers.get? k = some (some lk) → ml ≤ lk)
      ∧ (∀ j lj, j < routeQuery c1State "/data/db1.sawit" →
            c1State.workers.get? j = some (some lj) → ml < lj)
      ∧ (∀ q, routeQuery c1State q = routeQuery c1State "/data/db1.sawit") :=
  ⟨rfl, c1_least_busy_routing c1State "/data/db1.sawit" 0 1 rfl⟩

/-- C1 counterexample: in `c1State` the path `/data/db1.sawit` is open in
worker 0, yet the router sends the next query for that path to worker 1
(the globally least-busy worker): routing is not sticky by database
path, contrary to the claim. -/
theorem c1_not_sticky :
    "/data/db1.sawit" ∈ c1State.openPaths.getD 0 [] ∧
    routeQuery c1State "/data/db1.sawit" = 1 ∧
    ¬ stickyRouting c1State := by
  refine ⟨by decide, by decide, ?_⟩
  intro hs
  have := hs 0 "/data/db1.sawit" (by decide)
  simp [routeQuery, getBestWorker, c1State, getBestWorkerLoop] at this

/-! ## JavaScript string/number helpers (used by the parser and schema
manager embeddings) -/

/-- `\w` of the tokenizer regex: ASCII letters, digits and underscore. -/
def isWordChar (c : Char) : Bool :=
  c.isAlphanum || c = '_'

/-- Leading character of an identifier: `[a-zA-Z_]`. -/
def isIdentStart (c : Char) : Bool :=
  c.isAlpha || c = '_'

/-- The single-character token class `[(),=*.<>?]` of the tokenizer. -/
def isSingleTok (c : Char) : Bool :=
  c = '(' || c = ')' || c = ',' || c = '=' || c = '*' || c = '.' || c = '<' || c = '>' || c = '?'

/-- The ASCII quote character. -/
def quoteChar : Char := Char.ofNat 39

/-- JavaScript `s.toUpperCase()` (ASCII, which is all the parser
compares against). -/
def jsToUpper (s : String) : String :=
  String.mk (s.data.map Char.toUpper)

/-- Numeric value of a list of decimal digits. -/
def decNat (ds : List Char) : Nat :=
  ds.foldl (fun a c => a * 10 + (c.toNat - 48)) 0

/-- Core of JavaScript `Number(string)` on a trimmed, non-empty string:
an optional sign followed by `digits`, `digits.digits` or `.digits`.
`none` models `NaN`.  (The model covers the plain decimal forms used by
the code base; exponent and hex forms are outside the fragment.) -/
def jsStrToNumberCore (cs : List Char) : Option Rat :=
  let signed : Bool × List Char :=
    match cs with
    | '-' :: r => (true, r)
    | '+' :: r => (false, r)
    | _ => (false, cs)
  let body := signed.2
  let ip := body.takeWhile Char.isDigit
  let r1 := body.dropWhile Char.isDigit
  let mag : Option Rat :=
    if ip.isEmpty then
      match r1 with
      | '.' :: r2 =>
          let fp := r2.takeWhile Char.isDigit
          let r3 := r2.dropWhile Char.isDigit
          if fp.isEmpty || !r3.isEmpty then none
          else some ((decNat fp : Rat) / ((10 : Rat) ^ fp.length))
      | _ => none
    else
      match r1 with
      | [] => some (decNat ip : Rat)
      | '.' :: r2 =>
          let fp := r2.takeWhile Char.isDigit
          let r3 := r2.dropWhile Char.isDigit
          if !r3.isEmpty then none
          else some ((decNat ip : Rat) + (decNat fp : Rat) / ((10 : Rat) ^ fp.length))
      | _ => none
  mag.map (fun q => if signed.1 then -q else q)

/-- `String.prototype.trim`. -/
def jsTrim (s : String) : String :=
  String.mk (((s.data.dropWhile Char.isWhitespace).reverse.dropWhile
    Char.isWhitespace).reverse)

/-- JavaScript `Number(string)`: whitespace-only strings give `0`,
otherwise the trimmed string is parsed; `none` models `NaN`. -/
def jsStrToNumber (s : String) : Option Rat :=
  let t := jsTrim s
  if t = "" then some 0 else jsStrToNumberCore t.data

/-- JavaScript `Number(value)` (`ToNumber`); `none` models `NaN`. -/
def jsToNumber : JVal → Option Rat
  | .null => some 0
  | .bool b => some (if b then 1 else 0)
  | .num q => some q
  | .str s => jsStrToNumber s

/-- JavaScript `s.slice(1, -1)`: drop the first and last character. -/
def sliceQuotes (s : String) : String :=
  String.mk ((s.data.drop 1).dropLast)

/-- The literal-normalisation pattern used throughout QueryParser.js:
quoted tokens lose their quotes, tokens passing `!isNaN(v)` become
numbers, anything else stays a string. -/
def normToken (v : String) : JVal :=
  if v.startsWith (String.mk [quoteChar]) || v.startsWith "\"" then .str (sliceQuotes v)
  else
    match jsStrToNumber v with
    | some q => .num q
    | none => .str v

/-! ## The tokenizer (`QueryParser.tokenize`, QueryParser.js lines 9-20) -/

/-- Body of a quoted string literal `'(?:[^'\\]|\\.)*'`: consume up to the
closing quote `q`, keeping backslash escapes verbatim; `none` when the
literal is unterminated (the alternative then fails to match). -/
def quotedBody (q : Char) : List Char → Option (List Char × List Char)
  | [] => none
  | c :: rest =>
      if c = q then some ([], rest)
      else if c = '\\' then
        match rest with
        | [] => none
        | e :: rest2 => (quotedBody q rest2).map (fun p => (c :: e :: p.1, p.2))
      else (quotedBody q rest).map (fun p => (c :: p.1, p.2))

/-- Try the regex alternatives of `tokenize` at the current position, in
the order they appear in the regex:
`=>`, `!=`, `>=`, `<=`, `<>`, identifier (optionally dotted), `@name`,
number, quoted strings, then the single characters `(),=*.<>?`.
Returns the matched token and the remaining characters. -/
def tryTok (cs : List Char) : Option (String × List Char) :=
  match cs with
  | '=' :: '>' :: rest => some ("=>", rest)
  | '!' :: '=' :: rest => some ("!=", rest)
  | '>' :: '=' :: rest => some (">=", rest)
  | '<' :: '=' :: rest => some ("<=", rest)
  | '<' :: '>' :: rest => some ("<>", rest)
  | c :: rest =>
      if isIdentStart c then
        let w1 := (c :: rest).takeWhile isWordChar
        let r1 := (c :: rest).dropWhile isWordChar
        match r1 with
        | '.' :: d :: r2 =>
            if isIdentStart d then
              let w2 := (d :: r2).takeWhile isWordChar
              let r3 := (d :: r2).dropWhile isWordChar
              some (String.mk (w1 ++ '.' :: w2), r3)
            else some (String.mk w1, r1)
        | _ => some (String.mk w1, r1)
      else if c = '@' then
        match rest with
        | d :: _ =>
            if isWordChar d then
              some (String.mk ('@' :: rest.takeWhile isWordChar), rest.dropWhile isWordChar)
            else none
        | [] => none
      else if c.isDigit || (c = '-' && (rest.headD ' ').isDigit) then
        let sign : List Char := if c = '-' then ['-'] else []
        let body := if c = '-' then rest else c :: rest
        let ip := body.takeWhile Char.isDigit
        let r1 := body.dropWhile Char.isDigit
        match r1 with
        | '.' :: d :: r2 =>
            if d.isDigit then
              some (String.mk (sign ++ ip ++ '.' :: (d :: r2).takeWhile Char.isDigit),
                (d :: r2).dropWhile Char.isDigit)
            else some (String.mk (sign ++ ip), r1)
        | _ => some (String.mk (sign ++ ip), r1)
      else if c = quoteChar || c = '"' then
        match quotedBody c rest with
        | some (body, r2) => some (String.mk (c :: body ++ [c]), r2)
        | none => none
      else if isSingleTok c then some (String.mk [c], rest)
      else none
  | [] => none

/-- The `while exec` loop of `QueryParser.tokenize`: skip whitespace,
match an alternative at each position, and skip a character when nothing
matches (the global regex resumes at the next possible match).  The fuel
is the input length: every step consumes at least one character. -/
def tokenizeGo : Nat → List Char → List String
  | 0, _ => []
  | _ + 1, [] => []
  | fuel + 1, c :: rest =>
      if c.isWhitespace then tokenizeGo fuel rest
      else
        match tryTok (c :: rest) with
        | some (tok, remaining) => tok :: tokenizeGo fuel remaining
        | none => tokenizeGo fuel rest

/-- `QueryParser.tokenize` (QueryParser.js lines 9-20). -/
def tokenize (s : String) : List String :=
  tokenizeGo s.data.length s.data

/-! ## C2 / C10 — `QueryParser.parse` totality
(`parseSchemaDefinition`, QueryParser.js lines 914-973, and
`parseStoredProcedure`, lines 1025-1060).

Unbounded `while (tokens[i] !== ')')` loops are modelled with a fuel
parameter: a result of `none` means the loop has not finished within the
given fuel, so `∀ fuel, … = none` states that the JavaScript loop never
terminates. -/

/-- `tokens[i]`: `none` models JavaScript `undefined`. -/
def tokget (tokens : List String) (i : Nat) : Option String :=
  tokens.get? i

/-- A parsed schema field configuration `{ type, required, default }`.
`type` is `none` when the token read for it was `undefined`; `default`
is `none` when no DEFAULT/BAWAAN modifier was given. -/
structure FieldCfg where
  type : Option String
  required : Bool
  default : Option JVal
deriving DecidableEq, Repr

/-- JavaScript object assignment `obj[k] = v` on an association list:
overwrite in place if the key exists, else append. -/
def setKey {α : Type} : List (String × α) → String → α → List (String × α)
  | [], k, v => [(k, v)]
  | (k0, v0) :: rest, k, v =>
      if k0 = k then (k, v) :: rest else (k0, v0) :: setKey rest k v

/-- The TypeError message raised by `undefined.toUpperCase()`. -/
def tyErrUpper : String := "Cannot read properties of undefined (reading )"

/-- The modifier loop of `parseSchemaDefinition` (`while (i <
tokens.length && tokens[i] !== ',' && tokens[i] !== ')')`): accumulates
the `required` flag and the parsed `default` value and returns the new
index on break. -/
def schemaModLoop (tokens : List String) :
    Nat → Nat → Bool → Option JVal → Option (Except String (Nat × Bool × Option JVal))
  | 0, _, _, _ => none
  | fuel + 1, i, required, dflt =>
      if i < tokens.length ∧ tokget tokens i ≠ some "," ∧ tokget tokens i ≠ some ")" then
        let modifier := jsToUpper ((tokget tokens i).getD "")
        if modifier = "WAJIB" ∨ modifier = "REQUIRED" then
          schemaModLoop tokens fuel (i + 1) true dflt
        else if modifier = "DEFAULT" ∨ modifier = "BAWAAN" then
          match tokget tokens (i + 1) with
          | none => some (.error tyErrUpper)
          | some v => schemaModLoop tokens fuel (i + 2) required (some (normToken v))
        else some (.ok (i, required, dflt))
      else some (.ok (i, required, dflt))

/-- The field loop of `parseSchemaDefinition` (`while (tokens[i] !==
')')`).  Note that the loop guard never checks `i` against the token
count: when the closing parenthesis is missing, `tokens[i]` is
`undefined ≠ ')'` forever and the loop does not terminate. -/
def schemaFieldsLoop (tokens : List String) :
    Nat → Nat → List (String × FieldCfg) → Option (Except String (List (String × FieldCfg)))
  | 0, _, _ => none
  | fuel + 1, i, schema =>
      if tokget tokens i ≠ some ")" then
        let fieldName := (tokget tokens i).getD "undefined"
        let fieldType := tokget tokens (i + 1)
        match schemaModLoop tokens fuel (i + 2) false none with
        | none => none
        | some (.error e) => some (.error e)
        | some (.ok (i2, required, dflt)) =>
            let schema2 := setKey schema fieldName ⟨fieldType, required, dflt⟩
            let i3 := if tokget tokens i2 = some "," then i2 + 1 else i2
            schemaFieldsLoop tokens fuel i3 schema2
      else some (.ok schema)

/-- `QueryParser.parseSchemaDefinition` (QueryParser.js lines 914-973),
with fuel for the field loop.  `some (.ok _)` is a DEFINE_SCHEMA command,
`some (.error m)` a thrown exception (which `parse` would report as an
ERROR command), and `none` fuel exhaustion. -/
def parseSchemaDefinitionF (fuel : Nat) (tokens : List String) :
    Option (Except String (String × List (String × FieldCfg))) :=
  match tokget tokens 0 with
  | none => some (.error tyErrUpper)
  | some t0 =>
    if jsToUpper t0 ≠ "SERTIFIKASI" then
      some (.error "Syntax: SERTIFIKASI LAHAN [table] (...)")
    else
      match tokget tokens 1 with
      | none => some (.error tyErrUpper)
      | some t1 =>
        if jsToUpper t1 ≠ "LAHAN" then some (.error "Expected LAHAN after SERTIFIKASI")
        else
          match tokget tokens 2 with
          | none => some (.error "Table name required")
          | some tableName =>
            if tableName = "" then some (.error "Table name required")
            else if tokget tokens 3 ≠ some "(" then some (.error "Expected ( after table name")
            else
              match schemaFieldsLoop tokens fuel 4 [] with
              | none => none
              | some (.error e) => some (.error e)
              | some (.ok schema) => some (.ok (tableName, schema))

/-- Beyond the end of the token list, one round of the field loop moves
the index from `i` to `i + 2` and never exits, so the loop consumes any
amount of fuel without producing a result. -/
theorem schemaFieldsLoop_diverges (tokens : List String) :
    ∀ fuel i schema, tokens.length ≤ i →
      schemaFieldsLoop tokens fuel i schema = none := by
  intro fuel
  induction fuel with
  | zero => intro i schema _; rfl
  | succ fuel ih =>
      intro i schema hi
      have hget : tokget tokens i = none := by
        simp [tokget, List.get?_eq_none]
        omega
      have hguard : tokget tokens i ≠ some ")" := by simp [hget]
      rw [schemaFieldsLoop, if_pos hguard]
      cases fuel with
      | zero => rfl
      | succ g =>
          have hmod : schemaModLoop tokens (g + 1) (i + 2) false none =
              some (.ok (i + 2, false, none)) := by
            rw [schemaModLoop, if_neg]
            intro h
            omega
          rw [hmod]
          have hget2 : tokget tokens (i + 2) = none := by
            simp [tokget, List.get?_eq_none]
            omega
          simp only [hget2]
          rw [if_neg (by simp)]
          exact ih (i + 2) _ (by omega)

/-- C2: the claim that `QueryParser.parse` always returns a command
record fails on the code.  On the input `SERTIFIKASI LAHAN t (` (a
DEFINE_SCHEMA statement with an unclosed parenthesis) the field loop of
`parseSchemaDefinition` never terminates — for every amount of fuel the
embedded loop is still running — so `parse` neither returns a command
nor throws.  (The sibling loop in `parseInsert` guards exactly this case
with an "Unclosed parenthesis" error, so the unbounded loop is a slip in
the code, not intended behaviour.) -/
theorem c2_parse_diverges_on_unclosed_schema :
    tokenize "SERTIFIKASI LAHAN t (" = ["SERTIFIKASI", "LAHAN", "t", "("] ∧
    ∀ fuel, parseSchemaDefinitionF fuel ["SERTIFIKASI", "LAHAN", "t", "("] = none := by
  refine ⟨by decide, ?_⟩
  intro fuel
  have h := schemaFieldsLoop_diverges ["SERTIFIKASI", "LAHAN", "t", "("] fuel 4 [] (by decide)
  have e1 : jsToUpper "SERTIFIKASI" = "SERTIFIKASI" := by decide
  have e2 : jsToUpper "LAHAN" = "LAHAN" := by decide
  simp [parseSchemaDefinitionF, tokget, h, e1, e2]

/-- The parameter loop of `QueryParser.parseStoredProcedure`
(QueryParser.js lines 1040-1049): `while (tokens[i] !== ')') { if
(tokens[i] !== ',') params.push(tokens[i]); i++; }` — again with no
bounds check, so a missing `)` loops forever (pushing `undefined`). -/
def procParamsLoop (tokens : List String) :
    Nat → Nat → List (Option String) → Option (Nat × List (Option String))
  | 0, _, _ => none
  | fuel + 1, i, params =>
      if tokget tokens i ≠ some ")" then
        let params2 :=
          if tokget tokens i ≠ some "," then params ++ [tokget tokens i] else params
        procParamsLoop tokens fuel (i + 1) params2
      else some (i, params)

/-- `QueryParser.parseStoredProcedure` (QueryParser.js lines 1025-1060)
with fuel for the parameter loop.  The result on success is
`(name, params, body)` of the CREATE_PROCEDURE command. -/
def parseStoredProcedureF (fuel : Nat) (tokens : List String) :
    Option (Except String (String × List (Option String) × String)) :=
  match tokget tokens 0 with
  | none => some (.error tyErrUpper)
  | some t0 =>
    if jsToUpper t0 ≠ "SIMPAN" then
      some (.error "Syntax: SIMPAN SOP [nama] (...) SEBAGAI [query]")
    else
      match tokget tokens 1 with
      | none => some (.error tyErrUpper)
      | some t1 =>
        if jsToUpper t1 ≠ "SOP" then
          some (.error "Syntax: SIMPAN SOP [nama] (...) SEBAGAI [query]")
        else
          match tokget tokens 2 with
          | none => some (.error "Procedure name required")
          | some procName =>
            if procName = "" then some (.error "Procedure name required")
            else
              let afterParams : Option (Nat × List (Option String)) :=
                if tokget tokens 3 = some "(" then
                  (procParamsLoop tokens fuel 4 []).map (fun p => (p.1 + 1, p.2))
                else some (3, [])
              match afterParams with
              | none => none
              | some (i, params) =>
                match tokget tokens i with
                | none => some (.error tyErrUpper)
                | some t =>
                  if jsToUpper t ≠ "SEBAGAI" then
                    some (.error "Expected SEBAGAI after parameters")
                  else
                    some (.ok (procName, params, String.intercalate " " (tokens.drop (i + 1))))

/-- Beyond the end of the token list the parameter loop never exits. -/
theorem procParamsLoop_diverges (tokens : List String) :
    ∀ fuel i params, tokens.length ≤ i →
      procParamsLoop tokens fuel i params = none := by
  intro fuel
  induction fuel with
  | zero => intro i params _; rfl
  | succ fuel ih =>
      intro i params hi
      have hget : tokget tokens i = none := by
        simp [tokget, List.get?_eq_none]
        omega
      rw [procParamsLoop, if_pos (by simp [hget])]
      exact ih (i + 1) _ (by omega)

/-- C10: the claim that `SawitDB.query` is total fails on the code.  On
`query("SIMPAN SOP p (")` (a CREATE_PROCEDURE statement with an unclosed
parameter list) the open database reaches `this.parser.parse`
(WowoEngine.js line 157), which dispatches to `parseStoredProcedure`,
whose parameter loop never terminates — for every amount of fuel the
embedded loop is still running — so `query` never returns a value.  On
all terminating paths the try/catch of `query` does turn exceptions into
`Error: ...` strings, so the unbounded loop is the slip. -/
theorem c10_query_diverges_on_unclosed_params :
    tokenize "SIMPAN SOP p (" = ["SIMPAN", "SOP", "p", "("] ∧
    ∀ fuel, parseStoredProcedureF fuel ["SIMPAN", "SOP", "p", "("] = none := by
  refine ⟨by decide, ?_⟩
  intro fuel
  have h := procParamsLoop_diverges ["SIMPAN", "SOP", "p", "("] fuel 4 [] (by decide)
  have e1 : jsToUpper "SIMPAN" = "SIMPAN" := by decide
  have e2 : jsToUpper "SOP" = "SOP" := by decide
  simp [parseStoredProcedureF, tokget, h, e1, e2]

/-! ## C3 — WHERE precedence (`QueryParser.parseWhere`, QueryParser.js
lines 400-559).

`parseWhere` first collects a flat list of condition and connector
objects (`simpleConditions`) and then builds the criteria tree from it
(lines 522-558).  The tree-building phase is embedded here over that
flat list. -/

/-- The value of a single condition: a scalar, or an array (as produced
for `BETWEEN`/`IN`). -/
inductive CVal where
  | v (x : JVal)
  | arr (xs : List JVal)
deriving DecidableEq, Repr

/-- A node of the parser's criteria structure: a single condition
`{type: 'cond', key, op, val}`, a connector `{type: 'logic', op}`, a
compound node `{type: 'compound', logic, conditions}`, or JavaScript
`undefined` (read past the end of the array). -/
inductive Crit where
  | cond (key op : String) (val : CVal)
  | logic (op : String)
  | compound (lg : String) (conditions : List Crit)
  | undef
deriving Repr

/-- The `.op` field of a criteria object: conditions and connectors have
one, compound nodes and `undefined` do not. -/
def critOp : Crit → Option String
  | .cond _ op _ => some op
  | .logic op => some op
  | .compound _ _ => none
  | .undef => none

/-- Whether a node is a single condition. -/
def Crit.isCond : Crit → Bool
  | .cond _ _ _ => true
  | _ => false

/-- The AND-merge of pass 1 (lines 534-540): push onto an existing
AND-compound `current`, otherwise open a new AND-compound. -/
def mergeAnd (current nextCond : Crit) : Crit :=
  match current with
  | .compound "AND" cs => .compound "AND" (cs ++ [nextCond])
  | c => .compound "AND" [c, nextCond]

/-- Pass 1 of the tree build (lines 525-548): walk the flat list two
entries at a time (`k += 2`), merging AND-linked conditions into
compound AND nodes and keeping OR connectors; a missing `nextCond` is
JavaScript `undefined`. -/
def pass1Loop : Crit → List Crit → List Crit
  | current, [] => [current]
  | current, [lg] =>
      if critOp lg = some "AND" then [mergeAnd current .undef]
      else current :: lg :: [Crit.undef]
  | current, lg :: nextCond :: rest =>
      if critOp lg = some "AND" then pass1Loop (mergeAnd current nextCond) rest
      else current :: lg :: pass1Loop nextCond rest

/-- Pass 2 (lines 553-556): keep the entries at even positions
(`k += 2`), dropping the connectors. -/
def pass1Evens : List Crit → List Crit
  | [] => []
  | [x] => [x]
  | x :: _ :: rest => x :: pass1Evens rest

/-- The tree-building phase of `QueryParser.parseWhere` (lines 522-558),
applied to the collected `simpleConditions` list: `none` for an empty
list, the single group when pass 1 yields one entry, otherwise an OR
compound over the groups. -/
def parseWhereTree : List Crit → Option Crit
  | [] => none
  | c0 :: rest =>
      match pass1Loop c0 rest with
      | [single] => some single
      | p1 => some (.compound "OR" (pass1Evens p1))

/-- Modelled from the spec: "Build a tree by first grouping adjacent
AND-linked conditions into compound AND-nodes, then joining with OR."
An AND group is the head condition together with the conditions chained
to it by AND. -/
def mkAndGroup (head : Crit) (acc : List Crit) : Crit :=
  match acc with
  | [] => head
  | _ => .compound "AND" (head :: acc)

/-- Modelled from the spec: split the flat sequence at the OR
connectors, turning each maximal AND-chain into one group node. -/
def specGroups (head : Crit) (acc : List Crit) : List (String × Crit) → List Crit
  | [] => [mkAndGroup head acc]
  | (op, c) :: rest =>
      if op = "AND" then specGroups head (acc ++ [c]) rest
      else mkAndGroup head acc :: specGroups c [] rest

/-- Modelled from the spec: the claimed criteria tree — the AND groups
joined under a single OR node (or the lone group itself). -/
def specWhereTree (c0 : Crit) (pairs : List (String × Crit)) : Crit :=
  match specGroups c0 [] pairs with
  | [g] => g
  | gs => .compound "OR" gs

/-- Flatten `condition (connector condition)*` into the parser's
`simpleConditions` tail (everything after the first condition). -/
def toFlat : List (String × Crit) → List Crit
  | [] => []
  | (op, c) :: rest => .logic op :: c :: toFlat rest

/-- Groups interleaved with OR connectors — the shape of pass 1's
output. -/
def orInterleave : List Crit → List Crit
  | [] => []
  | [g] => [g]
  | g :: gs => g :: .logic "OR" :: orInterleave gs

theorem specGroups_ne_nil (head : Crit) (acc : List Crit) (pairs : List (String × Crit)) :
    specGroups head acc pairs ≠ [] := by
  induction pairs generalizing head acc with
  | nil => simp [specGroups]
  | cons p rest ih =>
      obtain ⟨op, c⟩ := p
      by_cases h : op = "AND" <;> simp [specGroups, h, ih]

theorem mergeAnd_mkAndGroup (head : Crit) (acc : List Crit) (c : Crit)
    (h : head.isCond = true) :
    mergeAnd (mkAndGroup head acc) c = mkAndGroup head (acc ++ [c]) := by
  cases acc with
  | nil =>
      cases head <;> simp_all [Crit.isCond, mkAndGroup, mergeAnd]
  | cons a as => simp [mkAndGroup, mergeAnd]

theorem pass1Evens_orInterleave (gs : List Crit) :
    pass1Evens (orInterleave gs) = gs := by
  induction gs with
  | nil => rfl
  | cons g rest ih =>
      cases rest with
      | nil => rfl
      | cons g2 rest2 =>
          simp only [orInterleave, pass1Evens]
          rw [ih]

theorem pass1Loop_spec (pairs : List (String × Crit)) :
    ∀ (head : Crit) (acc : List Crit), head.isCond = true →
    (∀ p ∈ pairs, (p.1 = "AND" ∨ p.1 = "OR") ∧ p.2.isCond = true) →
    pass1Loop (mkAndGroup head acc) (toFlat pairs) =
      orInterleave (specGroups head acc pairs) := by
  induction pairs with
  | nil =>
      intro head acc _ _
      rfl
  | cons p rest ih =>
      intro head acc hhead hp
      obtain ⟨op, c⟩ := p
      obtain ⟨hop, hc⟩ := hp (op, c) (List.mem_cons_self _ _)
      rcases hop with hAnd | hOr
      · subst hAnd
        cases htail : toFlat rest with
        | nil =>
            have : rest = [] := by
              cases rest with
              | nil => rfl
              | cons q qs =>
                  obtain ⟨qo, qc⟩ := q
                  simp [toFlat] at htail
            subst this
            simp only [toFlat, pass1Loop, critOp, if_pos rfl]
            rw [mergeAnd_mkAndGroup head acc c hhead]
            rfl
        | cons t ts =>
            simp only [toFlat, pass1Loop, critOp, if_pos rfl, htail]
            rw [← htail, mergeAnd_mkAndGroup head acc c hhead]
            simp only [specGroups, if_pos rfl]
            exact ih head (acc ++ [c]) hhead
              (fun q hq => hp q (List.mem_cons_of_mem _ hq))
      · subst hOr
        have hne : critOp (Crit.logic "OR") ≠ some "AND" := by decide
        cases htail : toFlat rest with
        | nil =>
            have : rest = [] := by
              cases rest with
              | nil => rfl
              | cons q qs =>
                  obtain ⟨qo, qc⟩ := q
                  simp [toFlat] at htail
            subst this
            simp only [toFlat, pass1Loop, if_neg hne]
            simp [specGroups, orInterleave, pass1Loop, mkAndGroup]
        | cons t ts =>
            simp only [toFlat, pass1Loop, if_neg hne, htail]
            have := ih c [] hc (fun q hq => hp q (List.mem_cons_of_mem _ hq))
            simp only [mkAndGroup] at this
            rw [← htail, this]
            have hgs := specGroups_ne_nil c [] rest
            simp only [specGroups, if_neg (by decide : ¬ ("OR" = "AND"))]
            cases hsg : specGroups c [] rest with
            | nil => exact absurd hsg hgs
            | cons g gs => rfl

/-- C3: for a WHERE clause that is a flat sequence of single comparisons
joined by AND/OR connectors, the tree-building phase of
`QueryParser.parseWhere` groups adjacent AND-linked conditions into
compound AND nodes first and then joins the resulting groups under a
single OR node — i.e. AND binds tighter than OR, exactly as the
spec-side `specWhereTree` prescribes. -/
theorem c3_parseWhere_and_binds_tighter (c0 : Crit) (pairs : List (String × Crit))
    (h0 : c0.isCond = true)
    (hp : ∀ p ∈ pairs, (p.1 = "AND" ∨ p.1 = "OR") ∧ p.2.isCond = true) :
    parseWhereTree (c0 :: toFlat pairs) = some (specWhereTree c0 pairs) := by
  have hmain := pass1Loop_spec pairs c0 [] h0 hp
  simp only [mkAndGroup] at hmain
  simp only [parseWhereTree, hmain, specWhereTree]
  cases hsg : specGroups c0 [] pairs with
  | nil => exact absurd hsg (specGroups_ne_nil c0 [] pairs)
  | cons g gs =>
      cases gs with
      | nil => rfl
      | cons g2 gs2 =>
          simp only [orInterleave]
          rw [show pass1Evens (g :: Crit.logic "OR" :: orInterleave (g2 :: gs2)) =
                g :: pass1Evens (orInterleave (g2 :: gs2)) from rfl,
              pass1Evens_orInterleave]

/-- C3 witness: `a = 1 AND b > 2 OR c = 3` builds
`OR(AND(a = 1, b > 2), c = 3)`. -/
theorem c3_parseWhere_and_binds_tighter_witness :
    (Crit.cond "a" "=" (.v (.num 1))).isCond = true ∧
    parseWhereTree (Crit.cond "a" "=" (.v (.num 1)) ::
        toFlat [("AND", Crit.cond "b" ">" (.v (.num 2))),
                ("OR", Crit.cond "c" "=" (.v (.num 3)))]) =
      some (specWhereTree (Crit.cond "a" "=" (.v (.num 1)))
        [("AND", Crit.cond "b" ">" (.v (.num 2))),
         ("OR", Crit.cond "c" "=" (.v (.num 3)))]) := by
  refine ⟨rfl, c3_parseWhere_and_binds_tighter _ _ rfl ?_⟩
  intro p hp
  simp only [List.mem_cons, List.not_mem_nil, or_false] at hp
  rcases hp with rfl | rfl
  · exact ⟨Or.inl rfl, rfl⟩
  · exact ⟨Or.inr rfl, rfl⟩


/-! ## C4 — LIKE matching in the table scan (`SawitDB._scanTable`,
WowoEngine.js lines 328-331).

The code builds `new RegExp('^' + pattern.replace(/%/g, '.*')
.replace(/_/g, '.') + '$', 'i').test(val)` — without escaping regex
metacharacters first.  The JavaScript regex is modelled on the fragment
the translation produces: literal characters, `.` and the `*`
quantifier, with the `i` flag and the usual line-terminator exclusion
for `.`.  Matching functions take a fuel argument so that they stay
structurally recursive; every step shrinks `pattern length + string
length`, so that sum plus one is always enough fuel. -/

/-- Case-insensitive character comparison (the `i` regex flag). -/
def ciEq (a b : Char) : Bool :=
  a.toLower = b.toLower

/-- JavaScript line terminators, which `.` does not match. -/
def isLineTerm (c : Char) : Bool :=
  c = '\n' || c = '\r' || c = Char.ofNat 0x2028 || c = Char.ofNat 0x2029

/-- A regex atom of the modelled fragment: `.` or a literal character. -/
inductive RAtom where
  | anyChar
  | lit (c : Char)
deriving DecidableEq, Repr

/-- An atom, optionally under the `*` quantifier. -/
inductive RElem where
  | once (a : RAtom)
  | star (a : RAtom)
deriving DecidableEq, Repr

/-- The atom denoted by one pattern character. -/
def atomOf (c : Char) : RAtom :=
  if c = '.' then .anyChar else .lit c

/-- Parse the translated pattern into the fragment: a character followed
by `*` becomes a starred atom. -/
def rxParse : List Char → List RElem
  | [] => []
  | [c] => [RElem.once (atomOf c)]
  | c :: c2 :: rest =>
      if c2 = '*' then RElem.star (atomOf c) :: rxParse rest
      else RElem.once (atomOf c) :: rxParse (c2 :: rest)

def atomMatch : RAtom → Char → Bool
  | .anyChar, c => !(isLineTerm c)
  | .lit l, c => ciEq l c

/-- Anchored (`^...$`) matching of the fragment against a string. -/
def rxMatchGo : Nat → List RElem → List Char → Bool
  | 0, _, _ => false
  | _ + 1, [], [] => true
  | _ + 1, [], _ :: _ => false
  | _ + 1, .once _ :: _, [] => false
  | fuel + 1, .once a :: rx, c :: cs => atomMatch a c && rxMatchGo fuel rx cs
  | fuel + 1, .star _ :: rx, [] => rxMatchGo fuel rx []
  | fuel + 1, .star a :: rx, c :: cs =>
      rxMatchGo fuel rx (c :: cs) || (atomMatch a c && rxMatchGo fuel (.star a :: rx) cs)

/-- The two global replaces of the LIKE translation:
`pattern.replace(/%/g, '.*').replace(/_/g, '.')`. -/
def translateLikeChars (p : List Char) : List Char :=
  (p.flatMap (fun c => if c = '%' then ['.', '*'] else [c])).map
    (fun c => if c = '_' then '.' else c)

/-- The LIKE predicate evaluated by `SawitDB._scanTable` (WowoEngine.js
lines 328-331): translate the pattern and test the anchored,
case-insensitive regex against the value. -/
def scanTableLike (val pattern : String) : Bool :=
  let rx := rxParse (translateLikeChars pattern.data)
  rxMatchGo (rx.length + val.data.length + 1) rx val.data

/-- Modelled from the spec: LIKE matching as claimed — `%` any sequence,
`_` any single character, case-insensitive, and every other character
(metacharacter or not, having been escaped) matches only itself. -/
def likeSpecGo : Nat → List Char → List Char → Bool
  | 0, _, _ => false
  | _ + 1, [], [] => true
  | _ + 1, [], _ :: _ => false
  | fuel + 1, p :: ps, s =>
      if p = '%' then
        likeSpecGo fuel ps s ||
          (match s with
           | [] => false
           | _ :: cs => likeSpecGo fuel (p :: ps) cs)
      else
        match s with
        | [] => false
        | c :: cs =>
            if p = '_' then likeSpecGo fuel ps cs
            else ciEq p c && likeSpecGo fuel ps cs

/-- Modelled from the spec: the claimed LIKE semantics on strings. -/
def likeSpecMatch (val pattern : String) : Bool :=
  likeSpecGo (pattern.data.length + val.data.length + 1) pattern.data val.data

/-- The characters with a regex meaning, which the code fails to
escape. -/
def regexMeta (c : Char) : Bool :=
  c = '\\' || c = '^' || c = '$' || c = '.' || c = '*' || c = '+' || c = '?' ||
  c = '(' || c = ')' || c = '[' || c = ']' || c = Char.ofNat 123 ||
  c = Char.ofNat 125 || c = '|'

/-- C4 counterexample: the scan predicate does not escape regex
metacharacters.  For the row value `abc` and the LIKE pattern `a.c`, the
claim (metacharacters escaped, so `.` matches only itself) requires no
match, but the code's predicate matches because the unescaped `.`
matches any character. -/
theorem c4_like_not_escaped :
    scanTableLike "abc" "a.c" = true ∧ likeSpecMatch "abc" "a.c" = false := by
  constructor <;> decide

/-- The fragment elements a metacharacter-free LIKE pattern should
compile to: `%` a starred any, `_` a single any, anything else a
literal. -/
def likeElems : List Char → List RElem
  | [] => []
  | c :: ps =>
      if c = '%' then .star .anyChar :: likeElems ps
      else if c = '_' then .once .anyChar :: likeElems ps
      else .once (.lit c) :: likeElems ps

theorem likeElems_length (p : List Char) : (likeElems p).length = p.length := by
  induction p with
  | nil => rfl
  | cons c ps ih =>
      by_cases hc : c = '%'
      · simp [likeElems, hc, ih]
      · by_cases hu : c = '_' <;> simp [likeElems, hc, hu, ih]

theorem translateLikeChars_cons (c : Char) (ps : List Char) :
    translateLikeChars (c :: ps) =
      ((if c = '%' then ['.', '*'] else [c]).map (fun x => if x = '_' then '.' else x)) ++
        translateLikeChars ps := by
  simp [translateLikeChars]

theorem translateLikeChars_head_ne_star (p : List Char)
    (hp : ∀ c ∈ p, regexMeta c = false) :
    ∀ x rest, translateLikeChars p = x :: rest → x ≠ '*' := by
  cases p with
  | nil => intro x rest h; simp [translateLikeChars] at h
  | cons c ps =>
      intro x rest h hx
      rw [translateLikeChars_cons] at h
      by_cases hc : c = '%'
      · simp [hc] at h
        subst hx
        exact absurd h.1 (by decide)
      · simp [hc] at h
        by_cases hu : c = '_'
        · simp [hu] at h
          subst hx
          exact absurd h.1 (by decide)
        · simp [hu] at h
          have := hp c (List.mem_cons_self _ _)
          rw [h.1, hx] at this
          simp [regexMeta] at this

theorem rxParse_translate (p : List Char) (hp : ∀ c ∈ p, regexMeta c = false) :
    rxParse (translateLikeChars p) = likeElems p := by
  induction p with
  | nil => rfl
  | cons c ps ih =>
      have hps : ∀ x ∈ ps, regexMeta x = false :=
        fun x hx => hp x (List.mem_cons_of_mem _ hx)
      have hc := hp c (List.mem_cons_self _ _)
      rw [translateLikeChars_cons]
      by_cases h1 : c = '%'
      · subst h1
        simp only [if_pos rfl]
        show rxParse ('.' :: '*' :: translateLikeChars ps) = likeElems ('%' :: ps)
        rw [rxParse, if_pos rfl, ih hps]
        simp [likeElems, atomOf]
      · have hstar : c ≠ '*' := by
          intro hx
          subst hx
          simp [regexMeta] at hc
        have hdot : c ≠ '.' := by
          intro hx
          subst hx
          simp [regexMeta] at hc
        by_cases h2 : c = '_'
        · subst h2
          simp only [if_neg h1, List.map, if_pos rfl, List.nil_append, List.cons_append,
            List.nil_append]
          cases htail : translateLikeChars ps with
          | nil =>
              have : likeElems ps = [] := by
                rw [← ih hps, htail]
                rfl
              simp [rxParse, atomOf, likeElems, this]
          | cons x rest =>
              have hxs := translateLikeChars_head_ne_star ps hps x rest htail
              rw [rxParse, if_neg hxs, ← htail, ih hps]
              simp [likeElems, atomOf]
        · simp only [if_neg h1, List.map, if_neg h2, List.nil_append, List.cons_append,
            List.nil_append]
          cases htail : translateLikeChars ps with
          | nil =>
              have : likeElems ps = [] := by
                rw [← ih hps, htail]
                rfl
              simp [rxParse, atomOf, hdot, likeElems, h1, h2, this]
          | cons x rest =>
              have hxs := translateLikeChars_head_ne_star ps hps x rest htail
              rw [rxParse, if_neg hxs, ← htail, ih hps]
              simp [likeElems, atomOf, hdot, h1, h2]

theorem rxMatchGo_likeElems :
    ∀ (fuel : Nat) (p s : List Char), p.length + s.length < fuel →
      (∀ c ∈ s, isLineTerm c = false) →
      rxMatchGo fuel (likeElems p) s = likeSpecGo fuel p s := by
  intro fuel
  induction fuel with
  | zero => intro p s h _; omega
  | succ fuel ih =>
      intro p s hlen hv
      cases p with
      | nil =>
          cases s with
          | nil => rfl
          | cons d cs => rfl
      | cons c ps =>
          by_cases h1 : c = '%'
          · subst h1
            cases s with
            | nil =>
                show rxMatchGo fuel (likeElems ps) [] = _
                rw [ih ps [] (by simp at hlen ⊢; omega) (by intro c hc; cases hc)]
                simp [likeSpecGo]
            | cons d cs =>
                have hd : atomMatch .anyChar d = true := by
                  simp [atomMatch, hv d (List.mem_cons_self _ _)]
                have hcs : ∀ c ∈ cs, isLineTerm c = false :=
                  fun c hc => hv c (List.mem_cons_of_mem _ hc)
                show (rxMatchGo fuel (likeElems ps) (d :: cs) ||
                    (atomMatch .anyChar d && rxMatchGo fuel (.star .anyChar :: likeElems ps) cs)) = _
                rw [hd, ih ps (d :: cs) (by simp at hlen ⊢; omega) hv]
                have h2 : rxMatchGo fuel (RElem.star RAtom.anyChar :: likeElems ps) cs =
                    likeSpecGo fuel ('%' :: ps) cs := by
                  have := ih ('%' :: ps) cs (by simp at hlen ⊢; omega) hcs
                  simpa [likeElems] using this
                rw [h2]
                simp [likeSpecGo]
          · by_cases h2 : c = '_'
            · subst h2
              cases s with
              | nil => simp [likeElems, rxMatchGo, likeSpecGo]
              | cons d cs =>
                  have hd : atomMatch .anyChar d = true := by
                    simp [atomMatch, hv d (List.mem_cons_self _ _)]
                  have hcs : ∀ c ∈ cs, isLineTerm c = false :=
                    fun c hc => hv c (List.mem_cons_of_mem _ hc)
                  show (atomMatch .anyChar d && rxMatchGo fuel (likeElems ps) cs) = _
                  rw [hd, ih ps cs (by simp at hlen ⊢; omega) hcs]
                  simp [likeSpecGo]
            · cases s with
              | nil => simp [likeElems, h1, h2, rxMatchGo, likeSpecGo]
              | cons d cs =>
                  have hcs : ∀ c ∈ cs, isLineTerm c = false :=
                    fun c hc => hv c (List.mem_cons_of_mem _ hc)
                  have hL : likeElems (c :: ps) = .once (.lit c) :: likeElems ps := by
                    simp [likeElems, h1, h2]
                  rw [hL]
                  show (atomMatch (.lit c) d && rxMatchGo fuel (likeElems ps) cs) = _
                  rw [ih ps cs (by simp at hlen ⊢; omega) hcs]
                  simp [likeSpecGo, h1, h2, atomMatch]

/-- C4 (amended): the LIKE predicate of the table scan matches
case-insensitively with `%` as any sequence and `_` as any single
character, but regex metacharacters are NOT escaped before translation —
they keep their regex meaning.  For patterns free of regex
metacharacters (and values without line terminators, which the
translated `.*`/`.` never match), the predicate agrees with the claimed
LIKE semantics. -/
theorem c4_like_amended (val pattern : String)
    (hp : ∀ c ∈ pattern.data, regexMeta c = false)
    (hv : ∀ c ∈ val.data, isLineTerm c = false) :
    scanTableLike val pattern = likeSpecMatch val pattern := by
  have hparse := rxParse_translate pattern.data hp
  show rxMatchGo _ (rxParse (translateLikeChars pattern.data)) val.data = _
  rw [hparse, likeElems_length]
  exact rxMatchGo_likeElems _ _ _ (by omega) hv

/-- C4 witness: the amended theorem applied to value `HELLO` and pattern
`he%` — both the scan predicate and the spec semantics match
(case-insensitively). -/
theorem c4_like_amended_witness :
    (∀ c ∈ "he%".data, regexMeta c = false) ∧
    (∀ c ∈ "HELLO".data, isLineTerm c = false) ∧
    scanTableLike "HELLO" "he%" = likeSpecMatch "HELLO" "he%" ∧
    scanTableLike "HELLO" "he%" = true :=
  ⟨by decide, by decide, c4_like_amended "HELLO" "he%" (by decide) (by decide), by decide⟩

/-! ## C5 — `InsertExecutor.insertMany` (InsertExecutor.js lines
734-845): page mechanics of a batch insert.

Pages are modelled by their header fields and decoded record list; a
record `s` occupies `2 + utf8-length(s)` bytes (the `len‖payload`
tuple).  The Pager (src/modules/Pager.js is not part of src/) is
modelled from the spec §4.A: `readPage`, `writePage`, and `allocPage`
returning the end-of-file index and appending a zeroed page with header
`{next = 0, count = 0, freeOffset = 8}`. -/

/-- `Pager.PAGE_SIZE` (spec §3: fixed 4096-byte pages). -/
def PAGE_SIZE : Nat := 4096

/-- A decoded page: next-page pointer, record count, free offset, and
the records stored from offset 8 upward. -/
structure Page where
  next : Nat
  count : Nat
  freeOffset : Nat
  recs : List String
deriving DecidableEq, Repr

/-- A freshly allocated page (spec §4.A). -/
def emptyPage : Page :=
  { next := 0, count := 0, freeOffset := 8, recs := [] }

/-- The main file as a list of pages indexed by page id. -/
structure PagerState where
  pages : List Page
deriving DecidableEq, Repr

/-- Modelled from the spec (§4.A, Pager.js absent from src/):
`readPage(id)`. -/
def readPage (st : PagerState) (id : Nat) : Page :=
  (st.pages.get? id).getD emptyPage

/-- Modelled from the spec (§4.A): `writePage(id, bytes)`. -/
def writePage (st : PagerState) (id : Nat) (p : Page) : PagerState :=
  ⟨st.pages.set id p⟩

/-- Modelled from the spec (§4.A): `allocPage()` returns the current
end-of-file page index and extends the file by one zeroed page. -/
def allocPage (st : PagerState) : PagerState × Nat :=
  (⟨st.pages ++ [emptyPage]⟩, st.pages.length)

/-- A catalog table entry `{name, startPage, lastPage}` (§3). -/
structure TableEntry where
  name : String
  startPage : Nat
  lastPage : Nat
deriving DecidableEq, Repr

/-- Bytes occupied by the `len‖payload` tuple of a record
(`2 + Buffer.byteLength(json)`). -/
def recLen (s : String) : Nat :=
  2 + s.utf8ByteSize

def sumRecLen (rs : List String) : Nat :=
  (rs.map recLen).sum

/-- Well-formedness of a page (spec §3 invariant 2): the free offset
accounts exactly for the stored tuples, the count matches, and the page
is within capacity. -/
def pageWF (p : Page) : Prop :=
  p.freeOffset = 8 + sumRecLen p.recs ∧ p.count = p.recs.length ∧ p.freeOffset ≤ PAGE_SIZE

/-- The local loop state of `insertMany`: the pager, `currentPageId`,
and the `pData` buffer held as its next pointer, records, `freeOffset`,
`count`, plus the `startPageChanged` flag. -/
structure InsLoopState where
  st : PagerState
  cur : Nat
  pNext : Nat
  pRecs : List String
  fo : Nat
  cnt : Nat
  changed : Bool
deriving Repr

/-- One iteration of the `for (const data of validatedDataArray)` loop
of `insertMany` (lines 765-818, page mechanics): if the tuple would
exceed the page capacity, flush the current page, allocate a new page,
rewrite the old page with its next pointer linked to the new one, and
continue there; then append the record into the buffer. -/
def insStep (s : InsLoopState) (data : String) : InsLoopState :=
  let totalLen := recLen data
  let s1 :=
    if s.fo + totalLen > PAGE_SIZE then
      let p1 : Page := { next := s.pNext, count := s.cnt, freeOffset := s.fo, recs := s.pRecs }
      let st1 := writePage s.st s.cur p1
      let alloc := allocPage st1
      let p2 : Page := { p1 with next := alloc.2 }
      let st3 := writePage alloc.1 s.cur p2
      let fresh := readPage st3 alloc.2
      { st := st3, cur := alloc.2, pNext := fresh.next, pRecs := fresh.recs,
        fo := fresh.freeOffset, cnt := fresh.count, changed := true }
    else s
  { s1 with pRecs := s1.pRecs ++ [data], fo := s1.fo + totalLen, cnt := s1.cnt + 1 }

/-- `InsertExecutor.insertMany` (page mechanics, lines 759-831): start
from the table's last page, run the loop over the batch, write the
final page back, and update the catalog entry's `lastPage` if the last
page changed (`updateTableLastPage`, modelled from the spec as setting
the entry's `lastPage` field).  An empty batch returns early without
touching any page. -/
def insertManyPages (st : PagerState) (entry : TableEntry) (batch : List String) :
    PagerState × TableEntry :=
  match batch with
  | [] => (st, entry)
  | _ =>
      let p0 := readPage st entry.lastPage
      let init : InsLoopState :=
        { st := st, cur := entry.lastPage, pNext := p0.next, pRecs := p0.recs,
          fo := p0.freeOffset, cnt := p0.count, changed := false }
      let fin := batch.foldl insStep init
      let pf : Page := { next := fin.pNext, count := fin.cnt, freeOffset := fin.fo, recs := fin.pRecs }
      let stf := writePage fin.st fin.cur pf
      let entry2 := if fin.changed then { entry with lastPage := fin.cur } else entry
      (stf, entry2)

/-- The page chain starting at `start`, following next pointers until 0,
with fuel against cycles. -/
def chainIds (st : PagerState) : Nat → Nat → List Nat
  | _, 0 => []
  | start, fuel + 1 =>
      if start = 0 then [] else start :: chainIds st (readPage st start).next fuel

/-- All records stored along a list of page ids. -/
def pagesRecs (st : PagerState) (ids : List Nat) : List String :=
  ids.flatMap (fun id => (readPage st id).recs)

/-- Write-back of the in-memory page buffer (`pager.writePage(currentPageId,
pData)` with the header fields set from the loop variables). -/
def flushLoop (s : InsLoopState) : PagerState :=
  writePage s.st s.cur { next := s.pNext, count := s.cnt, freeOffset := s.fo, recs := s.pRecs }

theorem writePage_length (st : PagerState) (id : Nat) (p : Page) :
    (writePage st id p).pages.length = st.pages.length := by
  simp [writePage]

theorem readPage_write_self (st : PagerState) (id : Nat) (p : Page)
    (h : id < st.pages.length) : readPage (writePage st id p) id = p := by
  simp [readPage, writePage, List.getElem?_set_eq_of_lt p h]

theorem readPage_write_ne (st : PagerState) (id j : Nat) (p : Page)
    (h : id ≠ j) : readPage (writePage st id p) j = readPage st j := by
  simp [readPage, writePage, List.getElem?_set_ne h]

theorem flushLoop_length (s : InsLoopState) :
    (flushLoop s).pages.length = s.st.pages.length :=
  writePage_length _ _ _

theorem flushLoop_self (s : InsLoopState) (h : s.cur < s.st.pages.length) :
    readPage (flushLoop s) s.cur =
      { next := s.pNext, count := s.cnt, freeOffset := s.fo, recs := s.pRecs } :=
  readPage_write_self _ _ _ h

theorem flushLoop_ne (s : InsLoopState) (j : Nat) (h : s.cur ≠ j) :
    readPage (flushLoop s) j = readPage s.st j :=
  readPage_write_ne _ _ _ _ h

theorem sumRecLen_append (rs : List String) (d : String) :
    sumRecLen (rs ++ [d]) = sumRecLen rs + recLen d := by
  simp [sumRecLen]

theorem pagesRecs_append (st : PagerState) (ids1 ids2 : List Nat) :
    pagesRecs st (ids1 ++ ids2) = pagesRecs st ids1 ++ pagesRecs st ids2 := by
  simp [pagesRecs]

theorem pagesRecs_congr (F G : PagerState) (ids : List Nat)
    (h : ∀ id ∈ ids, (readPage F id).recs = (readPage G id).recs) :
    pagesRecs F ids = pagesRecs G ids := by
  induction ids with
  | nil => rfl
  | cons id rest ih =>
      simp only [pagesRecs, List.flatMap_cons] at *
      rw [h id (List.mem_cons_self _ _), ih (fun x hx => h x (List.mem_cons_of_mem _ hx))]

/-- The loop invariant of the batch-insert loop, relative to the initial
pager `st0`, the table's last page `lp`, its original records `orig`,
and the records `processed` so far.  All chain facts are stated on the
flushed view `flushLoop s` (the state after writing the buffer back). -/
structure InsInv (st0 : PagerState) (lp : Nat) (orig : List String)
    (processed : List String) (s : InsLoopState) : Prop where
  hnk : st0.pages.length ≤ s.st.pages.length
  hcur : s.cur < s.st.pages.length
  hgeo : (s.changed = false ∧ s.cur = lp ∧ s.st.pages.length = st0.pages.length) ∨
         (s.changed = true ∧ st0.pages.length < s.st.pages.length ∧
           s.cur = s.st.pages.length - 1)
  hframe : ∀ j, j < st0.pages.length → j ≠ lp → s.st.pages.get? j = st0.pages.get? j
  hpnext : s.pNext = 0
  hfo : s.fo = 8 + sumRecLen s.pRecs
  hcnt : s.cnt = s.pRecs.length
  hcap : s.fo ≤ PAGE_SIZE
  hlpnext : (readPage (flushLoop s) lp).next =
      (if s.st.pages.length = st0.pages.length then 0 else st0.pages.length)
  hnewnext : ∀ i, st0.pages.length + i < s.st.pages.length →
      (readPage (flushLoop s) (st0.pages.length + i)).next =
        (if st0.pages.length + i + 1 = s.st.pages.length then 0
         else st0.pages.length + i + 1)
  hrecs : (readPage (flushLoop s) lp).recs ++
      pagesRecs (flushLoop s)
        (List.range' st0.pages.length (s.st.pages.length - st0.pages.length)) =
      orig ++ processed
  hwflp : pageWF (readPage (flushLoop s) lp)
  hwfnew : ∀ i, st0.pages.length + i < s.st.pages.length →
      pageWF (readPage (flushLoop s) (st0.pages.length + i))

theorem readPage_alloc_lt (st : PagerState) (j : Nat) (h : j < st.pages.length) :
    readPage (allocPage st).1 j = readPage st j := by
  simp [readPage, allocPage, List.getElem?_append_left h]

theorem readPage_alloc_new (st : PagerState) :
    readPage (allocPage st).1 st.pages.length = emptyPage := by
  simp [readPage, allocPage, List.getElem?_concat_length]

theorem insStep_no_overflow (s : InsLoopState) (d : String)
    (h : ¬ s.fo + recLen d > PAGE_SIZE) :
    insStep s d =
      { s with pRecs := s.pRecs ++ [d], fo := s.fo + recLen d, cnt := s.cnt + 1 } := by
  simp [insStep, h]

theorem insStep_overflow (s : InsLoopState) (d : String)
    (hover : s.fo + recLen d > PAGE_SIZE) (hcur : s.cur < s.st.pages.length) :
    insStep s d =
      { st := writePage
          (allocPage (writePage s.st s.cur
            { next := s.pNext, count := s.cnt, freeOffset := s.fo, recs := s.pRecs })).1
          s.cur
          { next := s.st.pages.length, count := s.cnt, freeOffset := s.fo, recs := s.pRecs },
        cur := s.st.pages.length,
        pNext := 0, pRecs := [d], fo := 8 + recLen d, cnt := 0 + 1, changed := true } := by
  have hlen1 : (writePage s.st s.cur
      { next := s.pNext, count := s.cnt, freeOffset := s.fo, recs := s.pRecs }).pages.length =
      s.st.pages.length := writePage_length _ _ _
  have hfresh : readPage
      (writePage
        (allocPage (writePage s.st s.cur
          { next := s.pNext, count := s.cnt, freeOffset := s.fo, recs := s.pRecs })).1
        s.cur
        { next := s.st.pages.length, count := s.cnt, freeOffset := s.fo, recs := s.pRecs })
      s.st.pages.length = emptyPage := by
    rw [readPage_write_ne _ _ _ _ (by omega)]
    have := readPage_alloc_new (writePage s.st s.cur
      { next := s.pNext, count := s.cnt, freeOffset := s.fo, recs := s.pRecs })
    rw [hlen1] at this
    exact this
  have halloc2 : (allocPage (writePage s.st s.cur
      { next := s.pNext, count := s.cnt, freeOffset := s.fo, recs := s.pRecs })).2 =
      s.st.pages.length := by
    simp [allocPage, hlen1]
  simp [insStep, if_pos hover, halloc2, hfresh, emptyPage]

theorem range1_concat (n m : Nat) : List.range' n (m + 1) = List.range' n m ++ [n + m] := by
  have := @List.range'_concat 1 n m
  simpa using this

theorem mem_range1 {a s n : Nat} : a ∈ List.range' s n ↔ ∃ i < n, a = s + i := by
  simpa using (@List.mem_range' s 1 a n)

theorem insInv_step (st0 : PagerState) (lp : Nat) (orig processed : List String)
    (s : InsLoopState) (d : String)
    (hlp0 : 0 < lp) (hlpn : lp < st0.pages.length)
    (inv : InsInv st0 lp orig processed s)
    (hd : recLen d ≤ PAGE_SIZE - 8) :
    InsInv st0 lp orig (processed ++ [d]) (insStep s d) := by
  have hps : PAGE_SIZE = 4096 := rfl
  by_cases hover : s.fo + recLen d > PAGE_SIZE
  · -- overflow: flush, allocate, link, continue on the fresh page
    rw [insStep_overflow s d hover inv.hcur]
    have hlen1 : (writePage s.st s.cur
        { next := s.pNext, count := s.cnt, freeOffset := s.fo, recs := s.pRecs }).pages.length =
        s.st.pages.length := writePage_length _ _ _
    have hlenA : ((allocPage (writePage s.st s.cur
        { next := s.pNext, count := s.cnt, freeOffset := s.fo, recs := s.pRecs })).1).pages.length =
        s.st.pages.length + 1 := by
      simp [allocPage, hlen1]
    have hlen' : (writePage
        (allocPage (writePage s.st s.cur
          { next := s.pNext, count := s.cnt, freeOffset := s.fo, recs := s.pRecs })).1 s.cur
        { next := s.st.pages.length, count := s.cnt, freeOffset := s.fo,
          recs := s.pRecs }).pages.length = s.st.pages.length + 1 := by
      rw [writePage_length, hlenA]
    -- reads in the flushed view of the new loop state
    have hRk : readPage (flushLoop
        { st := writePage
            (allocPage (writePage s.st s.cur
              { next := s.pNext, count := s.cnt, freeOffset := s.fo, recs := s.pRecs })).1 s.cur
            { next := s.st.pages.length, count := s.cnt, freeOffset := s.fo, recs := s.pRecs },
          cur := s.st.pages.length,
          pNext := 0, pRecs := [d], fo := 8 + recLen d, cnt := 0 + 1, changed := true })
        s.st.pages.length =
        { next := 0, count := 0 + 1, freeOffset := 8 + recLen d, recs := [d] } := by
      apply flushLoop_self
      show s.st.pages.length < _
      simp only [hlen']
      omega
    have hRcur : readPage (flushLoop
        { st := writePage
            (allocPage (writePage s.st s.cur
              { next := s.pNext, count := s.cnt, freeOffset := s.fo, recs := s.pRecs })).1 s.cur
            { next := s.st.pages.length, count := s.cnt, freeOffset := s.fo, recs := s.pRecs },
          cur := s.st.pages.length,
          pNext := 0, pRecs := [d], fo := 8 + recLen d, cnt := 0 + 1, changed := true })
        s.cur =
        { next := s.st.pages.length, count := s.cnt, freeOffset := s.fo, recs := s.pRecs } := by
      rw [flushLoop_ne _ _ (by show s.st.pages.length ≠ s.cur; have := inv.hcur; omega)]
      apply readPage_write_self
      have := inv.hcur
      simp only [hlenA]
      omega
    have hRother : ∀ j, j ≠ s.cur → j < s.st.pages.length →
        readPage (flushLoop
          { st := writePage
              (allocPage (writePage s.st s.cur
                { next := s.pNext, count := s.cnt, freeOffset := s.fo, recs := s.pRecs })).1 s.cur
              { next := s.st.pages.length, count := s.cnt, freeOffset := s.fo, recs := s.pRecs },
            cur := s.st.pages.length,
            pNext := 0, pRecs := [d], fo := 8 + recLen d, cnt := 0 + 1, changed := true })
          j = readPage (flushLoop s) j := by
      intro j hj hjk
      rw [flushLoop_ne _ _ (by show s.st.pages.length ≠ j; omega)]
      show readPage (writePage _ s.cur _) j = _
      rw [readPage_write_ne _ _ _ _ (fun h => hj h.symm)]
      rw [readPage_alloc_lt _ _ (by omega)]
      rw [readPage_write_ne _ _ _ _ (fun h => hj h.symm)]
      rw [flushLoop_ne s j (fun h => hj h.symm)]
    have hFcur : readPage (flushLoop s) s.cur =
        { next := s.pNext, count := s.cnt, freeOffset := s.fo, recs := s.pRecs } :=
      flushLoop_self s inv.hcur
    refine ⟨?_, ?_, ?_, ?_, rfl, ?_, rfl, ?_, ?_, ?_, ?_, ?_, ?_⟩
    · have h := inv.hnk
      simp only [hlen']
      omega
    · simp only [hlen']
      omega
    · right
      refine ⟨rfl, ?_, ?_⟩
      · have h := inv.hnk
        simp only [hlen']
        omega
      · simp only [hlen']
        omega
    · -- frame on the raw pager state
      intro j hj hjlp
      have hjcur : j ≠ s.cur := by
        rcases inv.hgeo with ⟨_, hcl, _⟩ | ⟨_, hn, hc⟩
        · rw [hcl]; exact hjlp
        · omega
      show (List.set _ s.cur _).get? j = _
      rw [List.get?_set_ne _ _ (Ne.symm hjcur)]
      show (((writePage s.st s.cur _).pages ++ [emptyPage]).get? j) = _
      rw [List.get?_append (by rw [hlen1]; have := inv.hnk; omega)]
      show (List.set _ s.cur _).get? j = _
      rw [List.get?_set_ne _ _ (Ne.symm hjcur)]
      exact inv.hframe j hj hjlp
    · -- free offset of the fresh buffer
      simp [sumRecLen, recLen]
    · -- capacity of the fresh buffer
      show 8 + recLen d ≤ PAGE_SIZE
      omega
    · -- next pointer of the old last page
      rw [if_neg (show ¬ _ = st0.pages.length by simp only [hlen']; have := inv.hnk; omega)]
      rcases inv.hgeo with ⟨_, hcl, hkn⟩ | ⟨_, hn, hc⟩
      · rw [show lp = s.cur from hcl.symm, hRcur]
        exact hkn
      · have hlpcur : lp ≠ s.cur := by omega
        have hlpk : lp < s.st.pages.length := by omega
        rw [hRother lp hlpcur hlpk]
        have := inv.hlpnext
        rw [if_neg (by omega)] at this
        exact this
    · -- next pointers of the allocated pages
      intro i hi
      simp only [hlen'] at hi ⊢
      by_cases hik : st0.pages.length + i = s.st.pages.length
      · rw [hik, hRk]
        rw [if_pos (by omega)]
      · have hilt : st0.pages.length + i < s.st.pages.length := by omega
        by_cases hicur : st0.pages.length + i = s.cur
        · rw [hicur, hRcur]
          have hcnf : s.changed = true := by
            rcases inv.hgeo with ⟨_, hcl, hkn⟩ | ⟨hc, _, _⟩
            · omega
            · exact hc
          rcases inv.hgeo with ⟨hc0, _, _⟩ | ⟨_, hn, hc⟩
          · rw [hcnf] at hc0; cases hc0
          · rw [if_neg (by omega)]
            show s.st.pages.length = s.cur + 1
            omega
        · rw [hRother _ hicur hilt]
          have := inv.hnewnext i hilt
          have hne : ¬ (st0.pages.length + i + 1 = s.st.pages.length) := by
            rcases inv.hgeo with ⟨_, _, hkn⟩ | ⟨_, hn, hc⟩ <;> omega
          rw [if_neg hne] at this
          rw [if_neg (by omega)]
          exact this
    · -- the chain records now end with [d] on the fresh page
      have hsplit : List.range' st0.pages.length (s.st.pages.length + 1 - st0.pages.length) =
          List.range' st0.pages.length (s.st.pages.length - st0.pages.length) ++
            [s.st.pages.length] := by
        have h1 : s.st.pages.length + 1 - st0.pages.length =
            (s.st.pages.length - st0.pages.length) + 1 := by
          have := inv.hnk
          omega
        rw [h1, range1_concat]
        congr 1
        · congr 1
          have := inv.hnk
          omega
      simp only [hlen']
      rw [hsplit, pagesRecs_append]
      have hlpread : (readPage (flushLoop
          { st := writePage
              (allocPage (writePage s.st s.cur
                { next := s.pNext, count := s.cnt, freeOffset := s.fo, recs := s.pRecs })).1 s.cur
              { next := s.st.pages.length, count := s.cnt, freeOffset := s.fo, recs := s.pRecs },
            cur := s.st.pages.length,
            pNext := 0, pRecs := [d], fo := 8 + recLen d, cnt := 0 + 1, changed := true })
          lp).recs = (readPage (flushLoop s) lp).recs := by
        rcases inv.hgeo with ⟨_, hcl, hkn⟩ | ⟨_, hn, hc⟩
        · rw [show lp = s.cur from hcl.symm, hRcur, hFcur]
        · rw [hRother lp (by omega) (by omega)]
      have hmid : pagesRecs (flushLoop
          { st := writePage
              (allocPage (writePage s.st s.cur
                { next := s.pNext, count := s.cnt, freeOffset := s.fo, recs := s.pRecs })).1 s.cur
              { next := s.st.pages.length, count := s.cnt, freeOffset := s.fo, recs := s.pRecs },
            cur := s.st.pages.length,
            pNext := 0, pRecs := [d], fo := 8 + recLen d, cnt := 0 + 1, changed := true })
          (List.range' st0.pages.length (s.st.pages.length - st0.pages.length)) =
          pagesRecs (flushLoop s)
            (List.range' st0.pages.length (s.st.pages.length - st0.pages.length)) := by
        apply pagesRecs_congr
        intro id hid
        obtain ⟨i, hi, rfl⟩ := mem_range1.mp hid
        by_cases hcr : st0.pages.length + i = s.cur
        · rw [hcr, hRcur, hFcur]
        · rw [hRother _ hcr (by omega)]
      rw [hlpread, hmid]
      have hnewrecs : pagesRecs (flushLoop
          { st := writePage
              (allocPage (writePage s.st s.cur
                { next := s.pNext, count := s.cnt, freeOffset := s.fo, recs := s.pRecs })).1 s.cur
              { next := s.st.pages.length, count := s.cnt, freeOffset := s.fo, recs := s.pRecs },
            cur := s.st.pages.length,
            pNext := 0, pRecs := [d], fo := 8 + recLen d, cnt := 0 + 1, changed := true })
          [s.st.pages.length] = [d] := by
        simp [pagesRecs, hRk]
      rw [hnewrecs]
      have hprev := inv.hrecs
      simp only [← List.append_assoc] at hprev ⊢
      rw [hprev]
    · -- the old last page stays well-formed
      rcases inv.hgeo with ⟨_, hcl, hkn⟩ | ⟨_, hn, hc⟩
      · rw [show lp = s.cur from hcl.symm, hRcur]
        exact ⟨inv.hfo, inv.hcnt, inv.hcap⟩
      · rw [hRother lp (by omega) (by omega)]
        exact inv.hwflp
    · -- allocated pages stay well-formed; the fresh page is within capacity
      intro i hi
      simp only [hlen'] at hi
      by_cases hik : st0.pages.length + i = s.st.pages.length
      · rw [hik, hRk]
        refine ⟨by simp [sumRecLen, recLen], rfl, ?_⟩
        show 8 + recLen d ≤ PAGE_SIZE
        omega
      · have hilt : st0.pages.length + i < s.st.pages.length := by omega
        by_cases hicur : st0.pages.length + i = s.cur
        · rw [hicur, hRcur]
          exact ⟨inv.hfo, inv.hcnt, inv.hcap⟩
        · rw [hRother _ hicur hilt]
          exact inv.hwfnew i hilt
  · -- no overflow: append into the current page buffer
    rw [insStep_no_overflow s d hover]
    have hflush : flushLoop
        { s with pRecs := s.pRecs ++ [d], fo := s.fo + recLen d, cnt := s.cnt + 1 } =
        writePage s.st s.cur
          { next := s.pNext, count := s.cnt + 1, freeOffset := s.fo + recLen d,
            recs := s.pRecs ++ [d] } := rfl
    have hself : readPage (flushLoop
        { s with pRecs := s.pRecs ++ [d], fo := s.fo + recLen d, cnt := s.cnt + 1 }) s.cur =
        { next := s.pNext, count := s.cnt + 1, freeOffset := s.fo + recLen d,
          recs := s.pRecs ++ [d] } := by
      rw [hflush]
      exact readPage_write_self _ _ _ inv.hcur
    have hne : ∀ j, j ≠ s.cur →
        readPage (flushLoop
          { s with pRecs := s.pRecs ++ [d], fo := s.fo + recLen d, cnt := s.cnt + 1 }) j =
          readPage (flushLoop s) j := by
      intro j hj
      rw [hflush, readPage_write_ne _ _ _ _ (fun h => hj h.symm),
        flushLoop_ne s j (fun h => hj h.symm)]
    have hFcur : readPage (flushLoop s) s.cur =
        { next := s.pNext, count := s.cnt, freeOffset := s.fo, recs := s.pRecs } :=
      flushLoop_self s inv.hcur
    refine ⟨inv.hnk, inv.hcur, ?_, inv.hframe, inv.hpnext, ?_, ?_, ?_, ?_, ?_, ?_, ?_, ?_⟩
    · rcases inv.hgeo with h | h
      · exact Or.inl h
      · exact Or.inr h
    · show s.fo + recLen d = 8 + sumRecLen (s.pRecs ++ [d])
      rw [sumRecLen_append, inv.hfo]
      omega
    · show s.cnt + 1 = (s.pRecs ++ [d]).length
      simp [inv.hcnt]
    · show s.fo + recLen d ≤ PAGE_SIZE
      omega
    · -- next pointer of the old last page unchanged
      rcases inv.hgeo with ⟨_, hcl, hkn⟩ | ⟨_, hn, hc⟩
      · rw [show lp = s.cur from hcl.symm, hself]
        have := inv.hlpnext
        rw [show lp = s.cur from hcl.symm, hFcur] at this
        exact this
      · have hlpcur : lp ≠ s.cur := by omega
        rw [hne lp hlpcur]
        exact inv.hlpnext
    · -- next pointers of allocated pages unchanged
      intro i hi
      by_cases hicur : st0.pages.length + i = s.cur
      · rw [hicur, hself]
        have := inv.hnewnext i hi
        rw [hicur, hFcur] at this
        exact this
      · rw [hne _ hicur]
        exact inv.hnewnext i hi
    · -- records: [d] lands at the end of the chain
      rcases inv.hgeo with ⟨_, hcl, hkn⟩ | ⟨_, hn, hc⟩
      · have hk0 : s.st.pages.length - st0.pages.length = 0 := by omega
        rw [hk0]
        have hprev := inv.hrecs
        rw [hk0] at hprev
        rw [show lp = s.cur from hcl.symm] at hprev ⊢
        rw [hself]
        rw [hFcur] at hprev
        show (s.pRecs ++ [d]) ++ pagesRecs _ [] = orig ++ (processed ++ [d])
        have hnil : pagesRecs (flushLoop
            { s with pRecs := s.pRecs ++ [d], fo := s.fo + recLen d, cnt := s.cnt + 1 })
            [] = [] := rfl
        rw [hnil]
        have hpr : s.pRecs ++ pagesRecs (flushLoop s) [] = orig ++ processed := hprev
        have : s.pRecs = orig ++ processed := by simpa [pagesRecs] using hpr
        rw [this, List.append_assoc]
        simp
      · have hsplit : List.range' st0.pages.length (s.st.pages.length - st0.pages.length) =
            List.range' st0.pages.length (s.st.pages.length - st0.pages.length - 1) ++
              [s.cur] := by
          have h1 : s.st.pages.length - st0.pages.length =
              (s.st.pages.length - st0.pages.length - 1) + 1 := by omega
          rw [h1, range1_concat]
          congr 2
          omega
        have hlpcur : lp ≠ s.cur := by omega
        rw [hsplit, pagesRecs_append, hne lp hlpcur]
        have hmid : pagesRecs (flushLoop
            { s with pRecs := s.pRecs ++ [d], fo := s.fo + recLen d, cnt := s.cnt + 1 })
            (List.range' st0.pages.length (s.st.pages.length - st0.pages.length - 1)) =
            pagesRecs (flushLoop s)
              (List.range' st0.pages.length (s.st.pages.length - st0.pages.length - 1)) := by
          apply pagesRecs_congr
          intro id hid
          obtain ⟨i, hi, rfl⟩ := mem_range1.mp hid
          rw [hne _ (by omega)]
        rw [hmid]
        have hcurrecs : pagesRecs (flushLoop
            { s with pRecs := s.pRecs ++ [d], fo := s.fo + recLen d, cnt := s.cnt + 1 })
            [s.cur] = s.pRecs ++ [d] := by
          simp [pagesRecs, hself]
        have hcurrecs0 : pagesRecs (flushLoop s) [s.cur] = s.pRecs := by
          simp [pagesRecs, hFcur]
        rw [hcurrecs]
        have hprev := inv.hrecs
        rw [hsplit, pagesRecs_append, hcurrecs0] at hprev
        simp only [← List.append_assoc] at hprev ⊢
        rw [hprev]
    · -- the old last page stays well-formed
      rcases inv.hgeo with ⟨_, hcl, hkn⟩ | ⟨_, hn, hc⟩
      · rw [show lp = s.cur from hcl.symm, hself]
        refine ⟨?_, by simp [inv.hcnt], by show s.fo + recLen d ≤ PAGE_SIZE; omega⟩
        show s.fo + recLen d = 8 + sumRecLen (s.pRecs ++ [d])
        rw [sumRecLen_append, inv.hfo]
        omega
      · rw [hne lp (by omega)]
        exact inv.hwflp
    · -- allocated pages stay well-formed
      intro i hi
      by_cases hicur : st0.pages.length + i = s.cur
      · rw [hicur, hself]
        refine ⟨?_, by simp [inv.hcnt], by show s.fo + recLen d ≤ PAGE_SIZE; omega⟩
        show s.fo + recLen d = 8 + sumRecLen (s.pRecs ++ [d])
        rw [sumRecLen_append, inv.hfo]
        omega
      · rw [hne _ hicur]
        exact inv.hwfnew i hi

theorem insInv_foldl (st0 : PagerState) (lp : Nat) (orig : List String)
    (hlp0 : 0 < lp) (hlpn : lp < st0.pages.length) :
    ∀ (batch : List String) (s : InsLoopState) (processed : List String),
      InsInv st0 lp orig processed s →
      (∀ d ∈ batch, recLen d ≤ PAGE_SIZE - 8) →
      InsInv st0 lp orig (processed ++ batch) (batch.foldl insStep s) := by
  intro batch
  induction batch with
  | nil =>
      intro s processed hinv _
      simpa using hinv
  | cons d rest ih =>
      intro s processed hinv hb
      have h1 := insInv_step st0 lp orig processed s d hlp0 hlpn hinv
        (hb d (List.mem_cons_self _ _))
      have h2 := ih (insStep s d) (processed ++ [d]) h1
        (fun x hx => hb x (List.mem_cons_of_mem _ hx))
      simpa [List.append_assoc] using h2

theorem insInv_init (st0 : PagerState) (lp : Nat)
    (hlp0 : 0 < lp) (hlpn : lp < st0.pages.length)
    (hterm : (readPage st0 lp).next = 0)
    (hwf : pageWF (readPage st0 lp)) :
    InsInv st0 lp (readPage st0 lp).recs []
      { st := st0, cur := lp, pNext := (readPage st0 lp).next,
        pRecs := (readPage st0 lp).recs, fo := (readPage st0 lp).freeOffset,
        cnt := (readPage st0 lp).count, changed := false } := by
  obtain ⟨hfo, hcnt, hcap⟩ := hwf
  have hself : readPage (flushLoop
      { st := st0, cur := lp, pNext := (readPage st0 lp).next,
        pRecs := (readPage st0 lp).recs, fo := (readPage st0 lp).freeOffset,
        cnt := (readPage st0 lp).count, changed := false }) lp =
      { next := (readPage st0 lp).next, count := (readPage st0 lp).count,
        freeOffset := (readPage st0 lp).freeOffset, recs := (readPage st0 lp).recs } :=
    flushLoop_self _ hlpn
  refine ⟨le_refl _, hlpn, Or.inl ⟨rfl, rfl, rfl⟩, fun j _ _ => rfl, hterm, hfo, hcnt, hcap,
    ?_, ?_, ?_, ?_, ?_⟩
  · rw [hself, if_pos rfl]
    exact hterm
  · intro i hi
    have hi2 : st0.pages.length + i < st0.pages.length := hi
    omega
  · show (readPage _ lp).recs ++ pagesRecs _ (List.range' st0.pages.length (st0.pages.length - st0.pages.length)) = _
    rw [hself]
    simp [pagesRecs]
  · rw [hself]
    exact ⟨hfo, hcnt, hcap⟩
  · intro i hi
    have hi2 : st0.pages.length + i < st0.pages.length := hi
    omega

theorem chainIds_zero (F : PagerState) (fuel : Nat) : chainIds F 0 fuel = [] := by
  cases fuel <;> simp [chainIds]

theorem chainIds_range (F : PagerState) (m : Nat) : ∀ n fuel, 0 < n → m + 1 < fuel →
    (∀ i, i ≤ m → (readPage F (n + i)).next = if i = m then 0 else n + i + 1) →
    chainIds F n fuel = List.range' n (m + 1) := by
  induction m with
  | zero =>
      intro n fuel h0 hf hnext
      have h1 := hnext 0 (le_refl 0)
      rw [if_pos rfl] at h1
      cases fuel with
      | zero => omega
      | succ fuel =>
          rw [chainIds, if_neg (by omega)]
          have h1' : (readPage F n).next = 0 := by simpa using h1
          rw [h1', chainIds_zero]
          rfl
  | succ m ih =>
      intro n fuel h0 hf hnext
      cases fuel with
      | zero => omega
      | succ fuel =>
          rw [chainIds, if_neg (by omega)]
          have h1 := hnext 0 (by omega)
          rw [if_neg (by omega)] at h1
          have h1' : (readPage F n).next = n + 1 := by simpa using h1
          rw [h1']
          have hshift : ∀ i, i ≤ m → (readPage F (n + 1 + i)).next =
              if i = m then 0 else n + 1 + i + 1 := by
            intro i hi
            have := hnext (i + 1) (by omega)
            have harg : n + (i + 1) = n + 1 + i := by omega
            rw [harg] at this
            by_cases hm : i = m
            · rw [if_pos (by omega)] at this
              rw [if_pos hm]
              exact this
            · rw [if_neg (by omega)] at this
              rw [if_neg hm]
              rw [this]
          rw [ih (n + 1) fuel (by omega) (by omega) hshift]
          exact (List.range'_succ n (m + 1) 1).symm

theorem chainIds_shape (F : PagerState) (lp n m fuel : Nat)
    (hlp0 : 0 < lp) (h0n : 0 < n)
    (hnext_lp : (readPage F lp).next = if m = 0 then 0 else n)
    (hnext : ∀ i, i < m → (readPage F (n + i)).next = if n + i + 1 = n + m then 0 else n + i + 1)
    (hfuel : m + 1 < fuel) :
    chainIds F lp fuel = lp :: List.range' n m := by
  cases fuel with
  | zero => omega
  | succ fuel =>
      rw [chainIds, if_neg (by omega)]
      cases m with
      | zero =>
          rw [if_pos rfl] at hnext_lp
          rw [hnext_lp, chainIds_zero]
          rfl
      | succ m =>
          rw [if_neg (by omega)] at hnext_lp
          rw [hnext_lp]
          rw [chainIds_range F m n fuel h0n (by omega) ?_]
          intro i hi
          have := hnext i (by omega)
          by_cases hm : i = m
          · rw [if_pos (by omega)] at this
            rw [if_pos hm]
            exact this
          · rw [if_neg (by omega)] at this
            rw [if_neg hm]
            exact this


/-- C5: for a non-empty batch inserted into an existing table whose
`lastPage` is a valid, well-formed, terminal page, `insertMany`
(a) leaves every other pre-existing page untouched, (b) extends the page
chain from the old last page by the consecutively allocated new pages,
(c) stores exactly the old records followed by the batch records, in
order, along that chain, (d) keeps every chain page well-formed and
within the 4096-byte capacity (records that would exceed it moved to a
newly allocated, linked page), and (e) points the catalog entry's
`lastPage` at the final page of the chain, updating it exactly when the
last page changed. -/
theorem c5_insertMany_appends_and_links (st : PagerState) (entry : TableEntry)
    (batch : List String) (stf : PagerState) (e2 : TableEntry)
    (hlp0 : 0 < entry.lastPage) (hlpn : entry.lastPage < st.pages.length)
    (hterm : (readPage st entry.lastPage).next = 0)
    (hwf : pageWF (readPage st entry.lastPage))
    (hbatch : ∀ d ∈ batch, recLen d ≤ PAGE_SIZE - 8)
    (hne : batch ≠ [])
    (hrun : insertManyPages st entry batch = (stf, e2)) :
    (∀ j, j < st.pages.length → j ≠ entry.lastPage →
        stf.pages.get? j = st.pages.get? j) ∧
    chainIds stf entry.lastPage (stf.pages.length + 1) =
      entry.lastPage :: List.range' st.pages.length (stf.pages.length - st.pages.length) ∧
    pagesRecs stf (chainIds stf entry.lastPage (stf.pages.length + 1)) =
      (readPage st entry.lastPage).recs ++ batch ∧
    (∀ id ∈ chainIds stf entry.lastPage (stf.pages.length + 1),
        pageWF (readPage stf id)) ∧
    e2.lastPage = (if stf.pages.length = st.pages.length then entry.lastPage
      else stf.pages.length - 1) ∧
    (readPage stf e2.lastPage).next = 0 ∧
    (e2 = entry ↔ stf.pages.length = st.pages.length) := by
  cases batch with
  | nil => exact absurd rfl hne
  | cons d rest =>
      have hinv0 := insInv_init st entry.lastPage hlp0 hlpn hterm hwf
      have hinv := insInv_foldl st entry.lastPage (readPage st entry.lastPage).recs hlp0 hlpn
        (d :: rest)
        { st := st, cur := entry.lastPage, pNext := (readPage st entry.lastPage).next,
          pRecs := (readPage st entry.lastPage).recs,
          fo := (readPage st entry.lastPage).freeOffset,
          cnt := (readPage st entry.lastPage).count, changed := false }
        [] hinv0 hbatch
      simp only [List.nil_append] at hinv
      have hrun2 : (flushLoop ((d :: rest).foldl insStep
          { st := st, cur := entry.lastPage, pNext := (readPage st entry.lastPage).next,
            pRecs := (readPage st entry.lastPage).recs,
            fo := (readPage st entry.lastPage).freeOffset,
            cnt := (readPage st entry.lastPage).count, changed := false }),
          if ((d :: rest).foldl insStep
            { st := st, cur := entry.lastPage, pNext := (readPage st entry.lastPage).next,
              pRecs := (readPage st entry.lastPage).recs,
              fo := (readPage st entry.lastPage).freeOffset,
              cnt := (readPage st entry.lastPage).count, changed := false }).changed then
            { entry with lastPage := ((d :: rest).foldl insStep
              { st := st, cur := entry.lastPage, pNext := (readPage st entry.lastPage).next,
                pRecs := (readPage st entry.lastPage).recs,
                fo := (readPage st entry.lastPage).freeOffset,
                cnt := (readPage st entry.lastPage).count, changed := false }).cur }
          else entry) = (stf, e2) := hrun
      set fin := (d :: rest).foldl insStep
        { st := st, cur := entry.lastPage, pNext := (readPage st entry.lastPage).next,
          pRecs := (readPage st entry.lastPage).recs,
          fo := (readPage st entry.lastPage).freeOffset,
          cnt := (readPage st entry.lastPage).count, changed := false } with hfin
      have hstf : stf = flushLoop fin := (congrArg Prod.fst hrun2).symm
      have he2 : e2 = (if fin.changed then { entry with lastPage := fin.cur } else entry) :=
        (congrArg Prod.snd hrun2).symm
      have hklen : stf.pages.length = fin.st.pages.length := by
        rw [hstf, flushLoop_length]
      have hchain : chainIds stf entry.lastPage (stf.pages.length + 1) =
          entry.lastPage ::
            List.range' st.pages.length (stf.pages.length - st.pages.length) := by
        apply chainIds_shape stf entry.lastPage st.pages.length
          (stf.pages.length - st.pages.length) (stf.pages.length + 1) hlp0 (by omega)
        · rw [hstf, flushLoop_length, hinv.hlpnext]
          by_cases hks : fin.st.pages.length = st.pages.length
          · rw [if_pos hks, if_pos (by omega)]
          · rw [if_neg hks, if_neg (by have := hinv.hnk; omega)]
        · intro i hi
          rw [hklen] at hi
          have hik : st.pages.length + i < fin.st.pages.length := by
            have := hinv.hnk
            omega
          rw [hstf, flushLoop_length]
          rw [hinv.hnewnext i hik]
          have hm : st.pages.length + (fin.st.pages.length - st.pages.length) =
              fin.st.pages.length := by
            have := hinv.hnk
            omega
          rw [hm]
        · rw [hklen]
          have := hinv.hnk
          omega
      have hcur_ne : ∀ j, j < st.pages.length → j ≠ entry.lastPage → j ≠ fin.cur := by
        intro j hj hjlp
        rcases hinv.hgeo with ⟨_, hcl, _⟩ | ⟨_, hn, hc⟩
        · rw [hcl]; exact hjlp
        · omega
      refine ⟨?_, hchain, ?_, ?_, ?_, ?_, ?_⟩
      · intro j hj hjlp
        rw [hstf]
        show (List.set fin.st.pages fin.cur _).get? j = _
        rw [List.get?_set_ne _ _ (Ne.symm (hcur_ne j hj hjlp))]
        exact hinv.hframe j hj hjlp
      · rw [hchain]
        have hcons : pagesRecs stf (entry.lastPage ::
            List.range' st.pages.length (stf.pages.length - st.pages.length)) =
            (readPage stf entry.lastPage).recs ++
              pagesRecs stf
                (List.range' st.pages.length (stf.pages.length - st.pages.length)) := by
          simp [pagesRecs]
        rw [hcons, hklen, hstf]
        exact hinv.hrecs
      · intro id hid
        rw [hchain] at hid
        rcases List.mem_cons.mp hid with rfl | hmem
        · rw [hstf]
          exact hinv.hwflp
        · obtain ⟨i, hi, rfl⟩ := mem_range1.mp hmem
          rw [hstf]
          apply hinv.hwfnew
          rw [← hklen]
          have := hinv.hnk
          omega
      · rcases hinv.hgeo with ⟨hch, hcl, hkn⟩ | ⟨hch, hn, hc⟩
        · rw [he2, hch, if_neg (by simp)]
          rw [if_pos (by rw [hklen, hkn])]
        · rw [he2, hch, if_pos rfl]
          show fin.cur = _
          rw [if_neg (by rw [hklen]; omega), hc, hklen]
      · rcases hinv.hgeo with ⟨hch, hcl, hkn⟩ | ⟨hch, hn, hc⟩
        · have he2e : e2 = entry := by
            rw [he2, hch, if_neg (by simp)]
          rw [he2e, hstf]
          have := hinv.hlpnext
          rw [if_pos hkn] at this
          exact this
        · have he2l : e2.lastPage = fin.cur := by
            rw [he2, hch, if_pos rfl]
          rw [he2l, hstf, hc]
          have hik : st.pages.length + (fin.st.pages.length - 1 - st.pages.length) <
              fin.st.pages.length := by omega
          have hnn := hinv.hnewnext _ hik
          rw [if_pos (by omega)] at hnn
          have harg : st.pages.length + (fin.st.pages.length - 1 - st.pages.length) =
              fin.st.pages.length - 1 := by omega
          rw [harg] at hnn
          exact hnn
      · constructor
        · intro heq
          rcases hinv.hgeo with ⟨hch, hcl, hkn⟩ | ⟨hch, hn, hc⟩
          · rw [hklen, hkn]
          · exfalso
            have he2l : e2.lastPage = fin.cur := by
              rw [he2, hch, if_pos rfl]
            rw [heq] at he2l
            omega
        · intro hk
          rcases hinv.hgeo with ⟨hch, hcl, hkn⟩ | ⟨hch, hn, hc⟩
          · rw [he2, hch, if_neg (by simp)]
          · exfalso
            rw [hklen] at hk
            omega

/-- A two-page database: the catalog page and one empty table page. -/
def c5St : PagerState :=
  ⟨[{ next := 0, count := 0, freeOffset := 8, recs := [] },
    { next := 0, count := 0, freeOffset := 8, recs := [] }]⟩

def c5Entry : TableEntry := { name := "t", startPage := 1, lastPage := 1 }

def c5Run : PagerState × TableEntry := insertManyPages c5St c5Entry ["ab"]

/-- C5 witness: the theorem applied to inserting one record `ab` into
the two-page database. -/
theorem c5_insertMany_appends_and_links_witness :
    0 < c5Entry.lastPage ∧
    (∀ j, j < c5St.pages.length → j ≠ c5Entry.lastPage →
        c5Run.1.pages.get? j = c5St.pages.get? j) ∧
    pagesRecs c5Run.1 (chainIds c5Run.1 c5Entry.lastPage (c5Run.1.pages.length + 1)) =
      (readPage c5St c5Entry.lastPage).recs ++ ["ab"] ∧
    (c5Run.2 = c5Entry ↔ c5Run.1.pages.length = c5St.pages.length) :=
  have h := c5_insertMany_appends_and_links c5St c5Entry ["ab"] c5Run.1 c5Run.2
    (by decide) (by decide) (by decide) ⟨by decide, by decide, by decide⟩
    (by decide) (by decide) rfl
  ⟨by decide, h.1, h.2.2.1, h.2.2.2.2.2.2⟩

/-! ## C6 — index maintenance (`IndexManager.updateIndexes`,
src/src/services/IndexManager.js lines 75-99).

A row is an association list of fields.  The BTreeIndex
(src/modules/BTreeIndex.js is not part of src/) is modelled from the
spec §4.C contract — `insert(key, rowRef)` adds an entry, `delete(key)`
takes only the key and removes its entries, `find(key)` filters — as a
list of `(key, row)` entries.  Alongside the updated index we record the
trace of index operations in the order they are performed. -/

/-- A row object. -/
abbrev Row := List (String × JVal)

/-- `row[field]`: `none` is JavaScript `undefined` (also the model of
`hasOwnProperty` being false). -/
def rowGet (r : Row) (f : String) : Option JVal :=
  r.lookup f

/-- Modelled from the spec: the entries of a BTreeIndex. -/
abbrev Index := List (JVal × Row)

/-- Modelled from the spec: `insert(key, rowRef)`. -/
def idxInsert (idx : Index) (k : JVal) (r : Row) : Index :=
  idx ++ [(k, r)]

/-- Modelled from the spec: `delete(key)` — it receives only the key, so
it removes every entry stored under it. -/
def idxDelete (idx : Index) (k : JVal) : Index :=
  idx.filter (fun e => e.1 != k)

/-- One primitive index operation, for stating the order in which
`updateIndexes` touches the index. -/
inductive IndexOp where
  | del (k : JVal)
  | ins (k : JVal) (r : Row)
deriving DecidableEq, Repr

/-- Split a character list at the first dot. -/
def breakDot : List Char → List Char × Option (List Char)
  | [] => ([], none)
  | c :: rest =>
      if c = '.' then ([], some rest)
      else
        let r := breakDot rest
        (c :: r.1, r.2)

/-- `const [tbl, field] = indexKey.split('.')` — the first two pieces of
the dot-split; a missing piece is `undefined`, which later object-key
accesses coerce to `"undefined"`. -/
def splitKey (s : String) : String × String :=
  match breakDot s.data with
  | (t, none) => (String.mk t, "undefined")
  | (t, some rest) => (String.mk t, String.mk (breakDot rest).1)

/-- The body of the `for` loop of `IndexManager.updateIndexes` (lines
78-98) for one index entry: remove the old value first (when present and
changed, or on delete), then insert the new value (when present and new
or changed).  Returns the updated index and the operation trace. -/
def updIdxOne (table : String) (newObj oldObj : Option Row) (key : String) (idx : Index) :
    Index × List IndexOp :=
  let tf := splitKey key
  if tf.1 = table then
    let oldVal : Option JVal := oldObj.bind (fun o => rowGet o tf.2)
    let newVal : Option JVal := newObj.bind (fun nw => rowGet nw tf.2)
    let step1 : Index × List IndexOp :=
      match oldObj with
      | some o =>
          match rowGet o tf.2 with
          | some vo =>
              if newObj = none ∨ newVal ≠ some vo then
                (idxDelete idx vo, [IndexOp.del vo])
              else (idx, [])
          | none => (idx, [])
      | none => (idx, [])
    let step2 : Index × List IndexOp :=
      match newObj with
      | some nw =>
          match rowGet nw tf.2 with
          | some vn =>
              if oldObj = none ∨ oldVal ≠ some vn then
                (idxInsert step1.1 vn nw, [IndexOp.ins vn nw])
              else (step1.1, [])
          | none => (step1.1, [])
      | none => (step1.1, [])
    (step2.1, step1.2 ++ step2.2)
  else (idx, [])

/-- `IndexManager.updateIndexes`: the loop over all indexes of the
database, applied synchronously within the mutating statement (called
from `insertMany` per inserted row, and with the old/new pair on
update). -/
def updateIndexes (table : String) (newObj oldObj : Option Row) :
    List (String × Index) → List (String × Index) × List IndexOp
  | [] => ([], [])
  | (key, idx) :: rest =>
      let r1 := updIdxOne table newObj oldObj key idx
      let r2 := updateIndexes table newObj oldObj rest
      ((key, r1.1) :: r2.1, r1.2 ++ r2.2)

/-- The body of `IndexManager.removeFromIndexes` (lines 101-108) for one
index entry: delete the row's key when the table matches and the row has
the field. -/
def removeOne (table : String) (data : Row) (key : String) (idx : Index) : Index :=
  let tf := splitKey key
  if tf.1 = table then
    match rowGet data tf.2 with
    | some v => idxDelete idx v
    | none => idx
  else idx

/-- `IndexManager.removeFromIndexes`. -/
def removeFromIndexes (table : String) (data : Row) (idxs : List (String × Index)) :
    List (String × Index) :=
  idxs.map (fun e => (e.1, removeOne table data e.1 e.2))

/-- The index reflects exactly the rows of its table for the indexed
field (spec §3 invariant 3): the multiset of entries equals the multiset
of `(row[f], row)` for the rows having `f`. -/
def reflects (idx : Index) (f : String) (rows : List Row) : Prop :=
  (idx : Multiset (JVal × Row)) =
    ((rows.filterMap (fun r => (rowGet r f).map (fun v => (v, r)))) : Multiset (JVal × Row))

/-- The indexed values are pairwise distinct across the table's rows. -/
def keysNodup (rows : List Row) (f : String) : Prop :=
  (rows.filterMap (fun r => rowGet r f)).Nodup

/-- The `(value, row)` entries a table contributes to an index on `field`. -/
def entriesOf (field : String) (rows : List Row) : List (JVal × Row) :=
  rows.filterMap (fun r => (rowGet r field).map (fun v => (v, r)))

lemma reflects_iff_perm (idx : Index) (field : String) (rows : List Row) :
    reflects idx field rows ↔ idx.Perm (entriesOf field rows) := by
  unfold reflects entriesOf
  exact Multiset.coe_eq_coe

lemma entriesOf_append (field : String) (xs ys : List Row) :
    entriesOf field (xs ++ ys) = entriesOf field xs ++ entriesOf field ys :=
  List.filterMap_append ..

lemma entriesOf_cons_some {field : String} {r : Row} {v : JVal} (rows : List Row)
    (h : rowGet r field = some v) :
    entriesOf field (r :: rows) = (v, r) :: entriesOf field rows := by
  simp [entriesOf, List.filterMap_cons, h]

lemma entriesOf_keys (field : String) (rows : List Row) :
    (entriesOf field rows).map Prod.fst = rows.filterMap (fun r => rowGet r field) := by
  induction rows with
  | nil => rfl
  | cons r rest ih =>
      cases h : rowGet r field <;> simp [entriesOf, List.filterMap_cons, h] <;>
        simpa [entriesOf] using ih

lemma reflects_idxDelete (idx : Index) (field : String) (pre post : List Row)
    (o : Row) (vo : JVal)
    (hrefl : reflects idx field (pre ++ o :: post))
    (hvo : rowGet o field = some vo)
    (hnd : keysNodup (pre ++ o :: post) field) :
    reflects (idxDelete idx vo) field (pre ++ post) := by
  rw [reflects_iff_perm] at hrefl ⊢
  have hK : (pre.filterMap (fun r => rowGet r field) ++
      vo :: post.filterMap (fun r => rowGet r field)).Nodup := by
    simpa [keysNodup, List.filterMap_append, List.filterMap_cons, hvo] using hnd
  have hnotpre : vo ∉ pre.filterMap (fun r => rowGet r field) := by
    intro hmem
    exact (List.nodup_append.mp hK).2.2 hmem (List.mem_cons_self _ _)
  have hnotpost : vo ∉ post.filterMap (fun r => rowGet r field) :=
    (List.nodup_cons.mp (List.nodup_append.mp hK).2.1).1
  have hfpre : (entriesOf field pre).filter (fun e => e.1 != vo) = entriesOf field pre := by
    apply List.filter_eq_self.mpr
    intro e he
    have hkmem : e.1 ∈ pre.filterMap (fun r => rowGet r field) := by
      rw [← entriesOf_keys]
      exact List.mem_map_of_mem _ he
    simp only [bne_iff_ne, ne_eq, decide_eq_true_eq]
    intro h
    exact hnotpre (h ▸ hkmem)
  have hfpost : (entriesOf field post).filter (fun e => e.1 != vo) = entriesOf field post := by
    apply List.filter_eq_self.mpr
    intro e he
    have hkmem : e.1 ∈ post.filterMap (fun r => rowGet r field) := by
      rw [← entriesOf_keys]
      exact List.mem_map_of_mem _ he
    simp only [bne_iff_ne, ne_eq, decide_eq_true_eq]
    intro h
    exact hnotpost (h ▸ hkmem)
  have hEntries : entriesOf field (pre ++ o :: post)
      = entriesOf field pre ++ (vo, o) :: entriesOf field post := by
    rw [entriesOf_append, entriesOf_cons_some post hvo]
  have hfil := hrefl.filter (fun e => e.1 != vo)
  rw [hEntries] at hfil
  have hred : (entriesOf field pre ++ (vo, o) :: entriesOf field post).filter
      (fun e => e.1 != vo) = entriesOf field (pre ++ post) := by
    rw [List.filter_append, List.filter_cons, entriesOf_append, hfpre, hfpost]
    simp
  rw [hred] at hfil
  exact hfil

lemma reflects_idxInsert (idx : Index) (field : String) (rows : List Row)
    (nw : Row) (vn : JVal)
    (hrefl : reflects idx field rows)
    (hvn : rowGet nw field = some vn) :
    reflects (idxInsert idx vn nw) field (rows ++ [nw]) := by
  rw [reflects_iff_perm] at hrefl ⊢
  rw [entriesOf_append, entriesOf_cons_some [] hvn]
  exact hrefl.append_right [(vn, nw)]

lemma reflects_insert_middle (idx : Index) (field : String) (pre post : List Row)
    (nw : Row) (vn : JVal)
    (hrefl : reflects idx field (pre ++ post))
    (hvn : rowGet nw field = some vn) :
    reflects (idxInsert idx vn nw) field (pre ++ nw :: post) := by
  rw [reflects_iff_perm] at hrefl ⊢
  have h2 : entriesOf field (pre ++ nw :: post)
      = entriesOf field pre ++ (vn, nw) :: entriesOf field post := by
    rw [entriesOf_append, entriesOf_cons_some post hvn]
  rw [h2]
  have hstep1 : (idxInsert idx vn nw).Perm
      (entriesOf field (pre ++ post) ++ [(vn, nw)]) := hrefl.append_right [(vn, nw)]
  have hstep2 : (entriesOf field (pre ++ post) ++ [(vn, nw)]).Perm
      ((vn, nw) :: entriesOf field (pre ++ post)) :=
    List.perm_append_singleton _ _
  have hstep3 : ((vn, nw) :: entriesOf field (pre ++ post)).Perm
      (entriesOf field pre ++ (vn, nw) :: entriesOf field post) := by
    rw [entriesOf_append]
    exact List.perm_middle.symm
  exact (hstep1.trans hstep2).trans hstep3

lemma updIdxOne_changed (table field key : String) (idx : Index) (o nw : Row)
    (vo vn : JVal)
    (hkey : splitKey key = (table, field))
    (hvo : rowGet o field = some vo)
    (hvn : rowGet nw field = some vn)
    (hne : vo ≠ vn) :
    updIdxOne table (some nw) (some o) key idx
      = (idxInsert (idxDelete idx vo) vn nw, [IndexOp.del vo, IndexOp.ins vn nw]) := by
  simp [updIdxOne, hkey, hvo, hvn, hne, Ne.symm hne]

lemma updIdxOne_insert (table field key : String) (idx : Index) (nw : Row) (vn : JVal)
    (hkey : splitKey key = (table, field))
    (hvn : rowGet nw field = some vn) :
    updIdxOne table (some nw) none key idx = (idxInsert idx vn nw, [IndexOp.ins vn nw]) := by
  simp [updIdxOne, hkey, hvn]

lemma removeOne_eq (table field key : String) (idx : Index) (o : Row) (vo : JVal)
    (hkey : splitKey key = (table, field))
    (hvo : rowGet o field = some vo) :
    removeOne table o key idx = idxDelete idx vo := by
  simp [removeOne, hkey, hvo]

/-- A row with indexed value 1. -/
def c6r1 : Row := [("f", JVal.num 1), ("id", JVal.str "a")]

/-- A second row with the same indexed value 1. -/
def c6r2 : Row := [("f", JVal.num 1), ("id", JVal.str "b")]

/-- `c6r1` after an update changing the indexed value to 2. -/
def c6r1b : Row := [("f", JVal.num 2), ("id", JVal.str "a")]

/-- The exact index over `[c6r1, c6r2]` on field `f`. -/
def c6Idx0 : Index := [(JVal.num 1, c6r1), (JVal.num 1, c6r2)]

/-- **C6, counterexample.**  With two rows sharing the indexed value,
updating one of them to a new value makes `updateIndexes` call
`delete(oldKey)` — which takes only the key and removes the other row's
entry as well — so afterwards the index no longer reflects exactly the
rows of the table for the indexed field, though the statement updated the
index synchronously and in delete-before-insert order. -/
theorem c6_index_not_exact :
    reflects c6Idx0 "f" [c6r1, c6r2]
    ∧ (updateIndexes "t" (some c6r1b) (some c6r1) [("t.f", c6Idx0)]).1
        = [("t.f", [(JVal.num 2, c6r1b)])]
    ∧ (updateIndexes "t" (some c6r1b) (some c6r1) [("t.f", c6Idx0)]).2
        = [IndexOp.del (JVal.num 1), IndexOp.ins (JVal.num 2) c6r1b]
    ∧ ¬ reflects [(JVal.num 2, c6r1b)] "f" [c6r1b, c6r2] := by
  refine ⟨by unfold reflects; decide, by decide, by decide, by unfold reflects; decide⟩

/-- **C6, amended.**  Index maintenance is synchronous within the
statement and, on a value change, delete-before-insert, as claimed; the
exactness invariant holds provided the indexed values of the table's
rows are pairwise distinct (the spec-contract `delete(key)` erases by key
alone, so duplicates break it, see the counterexample).  For an index
whose key names `table.field`, an exact index over rows
`pre ++ o :: post` with distinct indexed values, and an update of row
`o` to `nw` changing the indexed field from `vo` to `vn`:
(1) `updateIndexes` performs exactly `delete vo` then `insert vn nw`;
(2) the updated index exactly reflects the updated rows;
(3) an insert (`oldObj = null`) keeps the index exact over the extended
table; (4) `removeFromIndexes` on a deleted row keeps it exact over the
remaining rows. -/
theorem c6_index_sync_amended
    (table field key : String) (idx : Index) (pre post : List Row)
    (o nw : Row) (vo vn : JVal)
    (hkey : splitKey key = (table, field))
    (hrefl : reflects idx field (pre ++ o :: post))
    (hvo : rowGet o field = some vo)
    (hvn : rowGet nw field = some vn)
    (hne : vo ≠ vn)
    (hnd : keysNodup (pre ++ o :: post) field) :
    (updIdxOne table (some nw) (some o) key idx).2
        = [IndexOp.del vo, IndexOp.ins vn nw]
    ∧ reflects (updIdxOne table (some nw) (some o) key idx).1 field (pre ++ nw :: post)
    ∧ reflects (updIdxOne table (some nw) none key idx).1 field ((pre ++ o :: post) ++ [nw])
    ∧ reflects (removeOne table o key idx) field (pre ++ post) := by
  have hupd := updIdxOne_changed table field key idx o nw vo vn hkey hvo hvn hne
  have hins := updIdxOne_insert table field key idx nw vn hkey hvn
  have hdel := reflects_idxDelete idx field pre post o vo hrefl hvo hnd
  refine ⟨by rw [hupd], ?_, ?_, ?_⟩
  · rw [hupd]
    exact reflects_insert_middle (idxDelete idx vo) field pre post nw vn hdel hvn
  · rw [hins]
    exact reflects_idxInsert idx field (pre ++ o :: post) nw vn hrefl hvn
  · rw [removeOne_eq table field key idx o vo hkey hvo]
    exact hdel

/-- A row with indexed value 5, distinct from `c6r1`'s. -/
def c6s2 : Row := [("f", JVal.num 5), ("id", JVal.str "b")]

/-- An exact, duplicate-free index over `[c6r1, c6s2]` on field `f`. -/
def c6Jdx : Index := [(JVal.num 1, c6r1), (JVal.num 5, c6s2)]

/-- Witness for `c6_index_sync_amended` at a concrete duplicate-free
table. -/
theorem c6_index_sync_amended_witness :
    (updIdxOne "t" (some c6r1b) (some c6r1) "t.f" c6Jdx).2
        = [IndexOp.del (JVal.num 1), IndexOp.ins (JVal.num 2) c6r1b]
    ∧ reflects (updIdxOne "t" (some c6r1b) (some c6r1) "t.f" c6Jdx).1 "f"
        ([] ++ c6r1b :: [c6s2])
    ∧ reflects (updIdxOne "t" (some c6r1b) none "t.f" c6Jdx).1 "f"
        (([] ++ c6r1 :: [c6s2]) ++ [c6r1b])
    ∧ reflects (removeOne "t" c6r1 "t.f" c6Jdx) "f" ([] ++ [c6s2]) :=
  c6_index_sync_amended "t" "f" "t.f" c6Jdx [] [c6s2] c6r1 c6r1b
    (JVal.num 1) (JVal.num 2) (by decide) (by unfold reflects; decide)
    (by decide) (by decide) (by decide) (by unfold keysNodup; decide)

/-! ## C7 — schema validation (`SchemaManager.validateData` /
`SchemaManager._validateType`, src/unnamed/part_003 lines 93-138 and
190-229).

A schema maps field names to `{ type, required, default }` configs.
`JVal` carries the value universe; absence of a key models JavaScript
`undefined`.  The `Date` builtin (used by the `TANGGAL`/`DATE` branch) is
modelled by a proleptic-Gregorian day/millisecond arithmetic
(`daysFromCivil`/`civilFromDays`, the standard civil-calendar algorithm)
together with the environment-independent fragment of the ECMAScript
Date-Time String Format: a number is milliseconds since the epoch
(truncated toward zero, clipped at ±8.64e15), a string parses as
`YYYY-MM-DD` (UTC) or `YYYY-MM-DDTHH:MM(:SS(.sss)?)?Z`; forms without
`Z` denote host-timezone local time and are modelled as invalid. -/

/-- One field's schema configuration: `required` is the truthiness of
`config.required`, `dflt` is `config.default` (`none` = undefined). -/
structure FieldSpec where
  type : String
  required : Bool
  dflt : Option JVal
deriving DecidableEq, Repr

/-- A schema definition, fields in object-key order. -/
abbrev Schema := List (String × FieldSpec)

/-- `typeof value`. -/
def typeofStr : JVal → String
  | .null => "object"
  | .bool _ => "boolean"
  | .num _ => "number"
  | .str _ => "string"

/-- Decimal digits of `n`, most significant first (`fuel ≥ n` suffices). -/
def natDigitsGo : Nat → Nat → List Char
  | 0, _ => []
  | _ + 1, 0 => []
  | fuel + 1, n => natDigitsGo fuel (n / 10) ++ [Char.ofNat (48 + n % 10)]

/-- Decimal string of a natural number. -/
def natStr (n : Nat) : String :=
  if n = 0 then "0" else String.mk (natDigitsGo (n + 1) n)

/-- `n` zero-padded to `w` digits. -/
def padNat (w n : Nat) : String :=
  let s := natStr n
  String.mk (List.replicate (w - s.length) '0' ++ s.data)

/-- Fractional decimal digits of `r / den` (`r < den`), up to `fuel`. -/
def fracDigits : Nat → Nat → Nat → List Char
  | 0, _, _ => []
  | fuel + 1, r, den =>
      if r = 0 then []
      else Char.ofNat (48 + r * 10 / den) :: fracDigits fuel (r * 10 % den) den

/-- JavaScript number-to-string on the terminating-decimal fragment of
the model (integers exactly; other rationals to 20 fractional digits). -/
def ratStr (q : Rat) : String :=
  let sign := if q < 0 then "-" else ""
  let n := q.num.natAbs
  if n % q.den = 0 then sign ++ natStr (n / q.den)
  else sign ++ natStr (n / q.den) ++ "." ++ String.mk (fracDigits 20 (n % q.den) q.den)

/-- JavaScript `String(value)` / template-literal interpolation. -/
def jsDisplay : JVal → String
  | .null => "null"
  | .bool true => "true"
  | .bool false => "false"
  | .num q => ratStr q
  | .str s => s

/-- Proleptic-Gregorian leap year. -/
def isLeap (y : Int) : Bool :=
  (y % 4 == 0 && y % 100 != 0) || y % 400 == 0

/-- Days in month `m` (1-based) of year `y`. -/
def daysInMonth (y : Int) (m : Nat) : Nat :=
  if m = 2 then (if isLeap y then 29 else 28)
  else if m = 4 ∨ m = 6 ∨ m = 9 ∨ m = 11 then 30
  else 31

/-- Day count since 1970-01-01 of a civil date (`/` on `Int` is floor
division for these positive divisors). -/
def daysFromCivil (y : Int) (m d : Nat) : Int :=
  let y2 : Int := y - (if m ≤ 2 then 1 else 0)
  let era : Int := y2 / 400
  let yoe : Int := y2 - era * 400
  let mp : Int := if 3 ≤ m then (m : Int) - 3 else (m : Int) + 9
  let doy : Int := (153 * mp + 2) / 5 + (d : Int) - 1
  let doe : Int := yoe * 365 + yoe / 4 - yoe / 100 + doy
  era * 146097 + doe - 719468

/-- Civil date of a day count since 1970-01-01. -/
def civilFromDays (z0 : Int) : Int × Nat × Nat :=
  let z : Int := z0 + 719468
  let era : Int := z / 146097
  let doe : Int := z - era * 146097
  let yoe : Int := (doe - doe / 1460 + doe / 36524 - doe / 146096) / 365
  let y : Int := yoe + era * 400
  let doy : Int := doe - (365 * yoe + yoe / 4 - yoe / 100)
  let mp : Int := (5 * doy + 2) / 153
  let d : Int := doy - (153 * mp + 2) / 5 + 1
  let m : Int := mp + (if mp < 10 then 3 else -9)
  (y + (if m ≤ 2 then 1 else 0), m.toNat, d.toNat)

/-- `Date.prototype.toISOString` on a valid time value. -/
def isoOfMs (t : Int) : String :=
  let days : Int := t / 86400000
  let ms : Nat := (t % 86400000).toNat
  let c := civilFromDays days
  let ys : String :=
    if 0 ≤ c.1 ∧ c.1 ≤ 9999 then padNat 4 c.1.toNat
    else if c.1 < 0 then "-" ++ padNat 6 (-c.1).toNat
    else "+" ++ padNat 6 c.1.toNat
  ys ++ "-" ++ padNat 2 c.2.1 ++ "-" ++ padNat 2 c.2.2 ++ "T" ++
    padNat 2 (ms / 3600000) ++ ":" ++ padNat 2 (ms % 3600000 / 60000) ++ ":" ++
    padNat 2 (ms % 60000 / 1000) ++ "." ++ padNat 3 (ms % 1000) ++ "Z"

/-- Exactly `n` leading decimal digits and the remaining characters. -/
def digitsN (n : Nat) (cs : List Char) : Option (Nat × List Char) :=
  let ds := cs.take n
  if ds.length = n ∧ ds.all Char.isDigit then some (decNat ds, cs.drop n) else none

/-- After the seconds: `Z` or `.mmmZ`. -/
def parseMsTail : List Char → Option Nat
  | ['Z'] => some 0
  | '.' :: rest =>
      match digitsN 3 rest with
      | some (mmm, ['Z']) => some mmm
      | _ => none
  | _ => none

/-- After the minutes: `Z` or `:SS` then `parseMsTail`. -/
def parseSecTail : List Char → Option Nat
  | ['Z'] => some 0
  | ':' :: rest =>
      match digitsN 2 rest with
      | some (ss, rest2) =>
          if ss ≤ 59 then (parseMsTail rest2).map (fun mmm => ss * 1000 + mmm)
          else none
      | none => none
  | _ => none

/-- After the `T`: `HH:MM` then `parseSecTail`; milliseconds of day. -/
def parseTime (cs : List Char) : Option Nat :=
  match digitsN 2 cs with
  | some (hh, ':' :: rest) =>
      if hh ≤ 23 then
        match digitsN 2 rest with
        | some (mi, rest2) =>
            if mi ≤ 59 then
              (parseSecTail rest2).map (fun ms => hh * 3600000 + mi * 60000 + ms)
            else none
        | none => none
      else none
  | _ => none

/-- The modelled ECMAScript Date-Time String Format: date, optionally
`T` time `Z`; anything else is an invalid date. -/
def jsDateParseStr (s : String) : Option Int :=
  match digitsN 4 s.data with
  | some (y, '-' :: r1) =>
      match digitsN 2 r1 with
      | some (m, '-' :: r2) =>
          match digitsN 2 r2 with
          | some (d, rest) =>
              if 1 ≤ m ∧ m ≤ 12 ∧ 1 ≤ d ∧ d ≤ daysInMonth (y : Int) m then
                match rest with
                | [] => some (86400000 * daysFromCivil (y : Int) m d)
                | 'T' :: tr =>
                    (parseTime tr).map (fun ms => 86400000 * daysFromCivil (y : Int) m d + ms)
                | _ => none
              else none
          | none => none
      | _ => none
  | _ => none

/-- `new Date(value).getTime()`: `none` is an invalid date.  A number is
truncated toward zero and clipped at ±8.64e15; other non-strings go
through `ToNumber`. -/
def jsDateMs : JVal → Option Int
  | .str s => jsDateParseStr s
  | v =>
      (jsToNumber v).bind (fun q =>
        let t := Int.div q.num (q.den : Int)
        if t ≤ 8640000000000000 ∧ -8640000000000000 ≤ t then some t else none)

/-- `SchemaManager._validateType` (lines 190-229). -/
def validateType (field : String) (value : JVal) (ty : String) : Except String JVal :=
  let upperType := jsToUpper ty
  if upperType = "TEKS" ∨ upperType = "STRING" then
    match value with
    | .str _ => .ok value
    | _ => .error ("Field '" ++ field ++ "' must be a string, got " ++ typeofStr value)
  else if upperType = "ANGKA" ∨ upperType = "NUMBER" then
    match jsToNumber value with
    | some q => .ok (.num q)
    | none =>
        .error ("Field '" ++ field ++ "' must be a number, got '" ++ jsDisplay value ++ "'")
  else if upperType = "TANGGAL" ∨ upperType = "DATE" then
    match jsDateMs value with
    | some t => .ok (.str (isoOfMs t))
    | none =>
        .error ("Field '" ++ field ++ "' must be a valid date, got '" ++ jsDisplay value ++ "'")
  else if upperType = "BENAR_SALAH" ∨ upperType = "BOOLEAN" then
    match value with
    | .bool _ => .ok value
    | _ =>
        if value = .str "true" ∨ value = .num 1 then .ok (.bool true)
        else if value = .str "false" ∨ value = .num 0 then .ok (.bool false)
        else
          .error ("Field '" ++ field ++ "' must be a boolean, got '" ++ jsDisplay value ++ "'")
  else .error ("Unknown type '" ++ ty ++ "' for field '" ++ field ++ "'")

/-- The schema-field loop of `SchemaManager.validateData` (lines
104-128), building `validatedData` in schema order. -/
def validateFields (data : Row) : Schema → Except String Row
  | [] => .ok []
  | (field, cfg) :: rest =>
      let value := rowGet data field
      if cfg.required = true ∧ (value = none ∨ value = some .null) then
        .error ("Field '" ++ field ++ "' is required but missing")
      else if value = none then
        match cfg.dflt with
        | some d => (validateFields data rest).map (fun r => (field, d) :: r)
        | none => validateFields data rest
      else if value = some .null then
        (validateFields data rest).map (fun r => (field, .null) :: r)
      else
        match value with
        | some v =>
            match validateType field v cfg.type with
            | .ok v2 => (validateFields data rest).map (fun r => (field, v2) :: r)
            | .error e => .error e
        | none => validateFields data rest

/-- The extra-field loop of `validateData` (lines 131-135): data fields
absent from the schema pass through. -/
def extraFields (schema : Schema) (data : Row) : Row :=
  data.filter (fun e => (schema.lookup e.1).isNone)

/-- `SchemaManager.validateData` (lines 93-138); `none` schema means no
schema is defined for the table and the data passes through. -/
def validateData (schema : Option Schema) (data : Row) : Except String Row :=
  match schema with
  | none => .ok data
  | some sch =>
      match validateFields data sch with
      | .ok vd => .ok (vd ++ extraFields sch data)
      | .error e => .error e

lemma except_map_ok {α β ε : Type} (g : α → β) (x : Except ε α) (b : β)
    (h : x.map g = .ok b) : ∃ a, x = .ok a := by
  cases x with
  | ok a => exact ⟨a, rfl⟩
  | error e => simp [Except.map] at h

lemma validateFields_required_missing (data : Row) (field : String) (cfg : FieldSpec)
    (hreq : cfg.required = true)
    (hmiss : rowGet data field = none ∨ rowGet data field = some .null) :
    ∀ sch : Schema, (field, cfg) ∈ sch → ∀ out, validateFields data sch ≠ .ok out := by
  intro sch
  induction sch with
  | nil => intro h; cases h
  | cons hd rest ih =>
      intro hmem out hok
      rcases List.mem_cons.mp hmem with heq | htl
      · subst heq
        simp only [validateFields] at hok
        rw [if_pos ⟨hreq, hmiss⟩] at hok
        exact Except.noConfusion hok
      · obtain ⟨f0, c0⟩ := hd
        simp only [validateFields] at hok
        repeat' split at hok
        all_goals
          first
            | exact ih htl out hok
            | exact Except.noConfusion hok
            | (obtain ⟨r, hr⟩ := except_map_ok _ _ _ hok
               exact ih htl r hr)

/-- **C7.**  Schema validation coerces as claimed: (1) `ANGKA`/`NUMBER`
values become the number `Number(value)` and (2) fail exactly when that
is `NaN`; (3) `BENAR_SALAH`/`BOOLEAN` accepts `"true"`/`1` as `true`,
`"false"`/`0` as `false` and booleans as themselves; (4) valid
`TANGGAL`/`DATE` values are normalised to the ISO-8601 string of their
time value; (5) a field missing from the input whose config has a
default is filled with the default; (6) data fields not mentioned in the
schema pass through unchanged into the validated row; (7) a required
field that is missing (or null) makes validation fail. -/
theorem c7_schema_coercions :
    (∀ f v q ty, (jsToUpper ty = "ANGKA" ∨ jsToUpper ty = "NUMBER") →
        jsToNumber v = some q → validateType f v ty = .ok (.num q))
    ∧ (∀ f v ty, (jsToUpper ty = "ANGKA" ∨ jsToUpper ty = "NUMBER") →
        jsToNumber v = none → ∃ e, validateType f v ty = .error e)
    ∧ (∀ f v ty, (jsToUpper ty = "BENAR_SALAH" ∨ jsToUpper ty = "BOOLEAN") →
        ((v = .str "true" ∨ v = .num 1) → validateType f v ty = .ok (.bool true))
        ∧ ((v = .str "false" ∨ v = .num 0) → validateType f v ty = .ok (.bool false))
        ∧ (∀ b, v = .bool b → validateType f v ty = .ok (.bool b)))
    ∧ (∀ f v t ty, (jsToUpper ty = "TANGGAL" ∨ jsToUpper ty = "DATE") →
        jsDateMs v = some t → validateType f v ty = .ok (.str (isoOfMs t)))
    ∧ (∀ data field cfg rest dv, rowGet data field = none → cfg.required = false →
        cfg.dflt = some dv →
        validateFields data ((field, cfg) :: rest)
          = (validateFields data rest).map (fun r => (field, dv) :: r))
    ∧ (∀ sch data out f2 v2, validateData (some sch) data = .ok out →
        (f2, v2) ∈ data → sch.lookup f2 = none → (f2, v2) ∈ out)
    ∧ (∀ sch data field cfg, (field, cfg) ∈ sch → cfg.required = true →
        (rowGet data field = none ∨ rowGet data field = some .null) →
        ∀ out, validateData (some sch) data ≠ .ok out) := by
  refine ⟨?_, ?_, ?_, ?_, ?_, ?_, ?_⟩
  · intro f v q ty hty hnum
    rcases hty with h | h <;> simp [validateType, h, hnum]
  · intro f v ty hty hnum
    refine ⟨"Field '" ++ f ++ "' must be a number, got '" ++ jsDisplay v ++ "'", ?_⟩
    rcases hty with h | h <;> simp [validateType, h, hnum]
  · intro f v ty hty
    refine ⟨?_, ?_, ?_⟩
    · intro hv
      rcases hty with h | h <;> rcases hv with rfl | rfl <;> simp [validateType, h]
    · intro hv
      rcases hty with h | h <;> rcases hv with rfl | rfl <;> simp [validateType, h]
    · intro b hv
      rcases hty with h | h <;> subst hv <;> simp [validateType, h]
  · intro f v t ty hty hdate
    rcases hty with h | h <;> simp [validateType, h, hdate]
  · intro data field cfg rest dv h1 h2 h3
    simp [validateFields, h1, h2, h3]
  · intro sch data out f2 v2 hok hmem hlk
    cases hvf : validateFields data sch with
    | ok vd =>
        have hout : out = vd ++ extraFields sch data := by
          rw [validateData, hvf] at hok
          exact (Except.ok.injEq _ _ ▸ hok).symm
        rw [hout]
        refine List.mem_append_right _ ?_
        exact List.mem_filter.mpr ⟨hmem, by simp [hlk]⟩
    | error e =>
        rw [validateData, hvf] at hok
        exact absurd hok (by simp)
  · intro sch data field cfg hmem hreq hmiss out hok
    cases hvf : validateFields data sch with
    | ok vd =>
        exact validateFields_required_missing data field cfg hreq hmiss sch hmem vd hvf
    | error e =>
        rw [validateData, hvf] at hok
        exact Except.noConfusion hok

/-- The witness schema. -/
def c7Sch : Schema :=
  [("age", ⟨"ANGKA", false, some (.num 0)⟩), ("ok", ⟨"BENAR_SALAH", false, none⟩),
   ("born", ⟨"TANGGAL", false, none⟩), ("name", ⟨"TEKS", true, none⟩)]

/-- The witness input row. -/
def c7Data : Row :=
  [("age", .str "42"), ("ok", .num 1), ("born", .str "2024-02-29"),
   ("name", .str "x"), ("extra", .num 7)]

/-- The witness validated row. -/
def c7Out : Row :=
  [("age", .num 42), ("ok", .bool true), ("born", .str "2024-02-29T00:00:00.000Z"),
   ("name", .str "x"), ("extra", .num 7)]

/-- Witness for `c7_schema_coercions` at concrete fields and rows. -/
theorem c7_schema_coercions_witness :
    validateType "age" (.str "42") "angka" = .ok (.num 42)
    ∧ (∃ e, validateType "age" (.str "x1") "NUMBER" = .error e)
    ∧ validateType "ok" (.num 1) "BOOLEAN" = .ok (.bool true)
    ∧ validateType "ok" (.str "false") "benar_salah" = .ok (.bool false)
    ∧ validateType "ok" (.bool true) "BOOLEAN" = .ok (.bool true)
    ∧ validateType "born" (.str "2024-02-29") "TANGGAL"
        = .ok (.str (isoOfMs 1709164800000))
    ∧ validateFields [("x", JVal.num 1)] [("age", ⟨"ANGKA", false, some (.num 18)⟩)]
        = (validateFields [("x", JVal.num 1)] []).map (fun r => ("age", JVal.num 18) :: r)
    ∧ ("extra", JVal.num 7) ∈ c7Out
    ∧ validateData (some [("name", ⟨"TEKS", true, none⟩)]) [("x", JVal.num 1)]
        ≠ .ok [] := by
  obtain ⟨h1, h2, h3, h4, h5, h6, h7⟩ := c7_schema_coercions
  exact ⟨h1 "age" (.str "42") 42 "angka" (by decide) (by decide),
    h2 "age" (.str "x1") "NUMBER" (by decide) (by decide),
    (h3 "ok" (.num 1) "BOOLEAN" (by decide)).1 (Or.inr rfl),
    (h3 "ok" (.str "false") "benar_salah" (by decide)).2.1 (Or.inl rfl),
    (h3 "ok" (.bool true) "BOOLEAN" (by decide)).2.2 true rfl,
    h4 "born" (.str "2024-02-29") 1709164800000 "TANGGAL" (by decide) (by decide),
    h5 [("x", JVal.num 1)] "age" ⟨"ANGKA", false, some (.num 18)⟩ [] (.num 18)
      (by decide) rfl rfl,
    h6 c7Sch c7Data c7Out "extra" (.num 7) rfl (by decide) (by decide),
    h7 [("name", ⟨"TEKS", true, none⟩)] [("x", JVal.num 1)] "name"
      ⟨"TEKS", true, none⟩ (by decide) rfl (Or.inl (by decide)) []⟩

/-! ## C8 — transactional buffering of writes (`SawitDB.query`,
src/unnamed/part_002 lines 189-212).

The dispatch switch guards the `INSERT`, `UPDATE` and `DELETE` cases
with `this.transactionManager.isActive()` and, when a transaction is
active, returns `bufferOperation(kind, cmd)` without touching the
executor.  The TransactionManager (src/modules/TransactionManager.js is
not part of src/) is modelled from the spec §4.F contract: `isActive()`
is whether the session has a transaction buffer, `bufferOperation`
appends the command to the ordered buffer (its return value is not
fixed by the spec; it is irrelevant to the frame property).  The
executors are left universally quantified, so the theorem holds for
every executor behaviour — formalising that no executor is invoked. -/

/-- A write command of the dispatch fragment. -/
inductive WCmd where
  | ins (table : String) (data : Row)
  | upd (table : String) (updates : Row) (criteria : Option Crit)
  | del (table : String) (criteria : Option Crit)

/-- The `kind` string `query` passes to `bufferOperation`. -/
def kindOf : WCmd → String
  | .ins .. => "INSERT"
  | .upd .. => "UPDATE"
  | .del .. => "DELETE"

/-- The engine state a statement can touch: stored table data, in-memory
indexes, and the session's transaction buffer (`none` = no active
transaction). -/
structure EngineSt where
  tables : List (String × List Row)
  indexes : List (String × Index)
  txn : Option (List (String × WCmd))

/-- Modelled from the spec: `TransactionManager.isActive()`. -/
def isActive (st : EngineSt) : Bool :=
  st.txn.isSome

/-- Modelled from the spec: `TransactionManager.bufferOperation(kind,
command)` appends to the ordered buffer. -/
def bufferOperation (kind : String) (cmd : WCmd) (st : EngineSt) : EngineSt × String :=
  ({ st with txn := st.txn.map (fun b => b ++ [(kind, cmd)]) }, "BUFFERED")

/-- The `INSERT`/`UPDATE`/`DELETE` cases of the `query` dispatch switch
(lines 189-212), with the three executors as parameters. -/
def dispatchWrite (insE updE delE : WCmd → EngineSt → EngineSt × String)
    (st : EngineSt) (cmd : WCmd) : EngineSt × String :=
  match cmd with
  | .ins .. => if isActive st then bufferOperation "INSERT" cmd st else insE cmd st
  | .upd .. => if isActive st then bufferOperation "UPDATE" cmd st else updE cmd st
  | .del .. => if isActive st then bufferOperation "DELETE" cmd st else delE cmd st

/-- **C8.**  With a transaction active on the session, dispatching an
INSERT, UPDATE or DELETE records the command (with its kind) at the end
of the transaction buffer and leaves every table and every index exactly
as it was, and the outcome is independent of the executors — they are
not invoked. -/
theorem c8_txn_buffered_frame
    (insE updE delE insE2 updE2 delE2 : WCmd → EngineSt → EngineSt × String)
    (st : EngineSt) (cmd : WCmd) (buf : List (String × WCmd))
    (hactive : st.txn = some buf) :
    (dispatchWrite insE updE delE st cmd).1.tables = st.tables
    ∧ (dispatchWrite insE updE delE st cmd).1.indexes = st.indexes
    ∧ (dispatchWrite insE updE delE st cmd).1.txn
        = some (buf ++ [(kindOf cmd, cmd)])
    ∧ dispatchWrite insE updE delE st cmd = dispatchWrite insE2 updE2 delE2 st cmd := by
  have hact : isActive st = true := by simp [isActive, hactive]
  cases cmd <;> simp [dispatchWrite, hact, bufferOperation, kindOf, hactive]

/-- A destructive executor (drops every table): the theorem shows it is
never reached inside a transaction. -/
def c8Exec : WCmd → EngineSt → EngineSt × String :=
  fun _ st => ({ st with tables := [] }, "X")

/-- A second, different executor for the independence conjunct. -/
def c8Exec2 : WCmd → EngineSt → EngineSt × String :=
  fun _ st => (st, "Y")

/-- The witness state: one table, one index, an active empty buffer. -/
def c8St : EngineSt :=
  ⟨[("t", [[("f", JVal.num 1)]])], [("t.f", [(JVal.num 1, [("f", JVal.num 1)])])],
   some []⟩

/-- The witness command. -/
def c8Cmd : WCmd := .ins "t" [("f", JVal.num 2)]

/-- Witness for `c8_txn_buffered_frame` at a concrete state, command and
pair of executors. -/
theorem c8_txn_buffered_frame_witness :
    (dispatchWrite c8Exec c8Exec c8Exec c8St c8Cmd).1.tables = c8St.tables
    ∧ (dispatchWrite c8Exec c8Exec c8Exec c8St c8Cmd).1.indexes = c8St.indexes
    ∧ (dispatchWrite c8Exec c8Exec c8Exec c8St c8Cmd).1.txn
        = some ([] ++ [(kindOf c8Cmd, c8Cmd)])
    ∧ dispatchWrite c8Exec c8Exec c8Exec c8St c8Cmd
        = dispatchWrite c8Exec2 c8Exec2 c8Exec2 c8St c8Cmd :=
  c8_txn_buffered_frame c8Exec c8Exec c8Exec c8Exec2 c8Exec2 c8Exec2 c8St c8Cmd [] rfl

/-! ## C9 — error propagation to the client (`SawitDB.query` lines
271-273 and `SawitServer.#handleQuery`, src/unnamed/part_001 lines
622-653).

The engine's `query` wraps statement execution in `try { ... } catch
(e) { return `Error: ${e.message}`; }` — a failing statement yields the
string value `"Error: <message>"`, not a thrown error.  `#handleQuery`
awaits the engine call and sends `{type: 'query_result', result, query,
executionTime}`; its own catch — reached only when the awaited call
itself throws — sends `#sendError`'s `{type: 'error', error: 'Query
error: <message>'}` (line 727-729).  Statement execution is left
universally quantified as an `Except` outcome. -/

/-- A response frame of the fragment (timing metadata elided). -/
inductive Frame where
  | queryResult (result : JVal) (query : String)
  | error (error : String)
deriving DecidableEq, Repr

/-- The try/catch of the engine's `query` around statement execution
(lines 271-273): exceptions come back as `Error: ...` string values. -/
def engineRun (exec : Except String JVal) : JVal :=
  match exec with
  | .ok v => v
  | .error e => .str ("Error: " ++ e)

/-- The try/catch of `#handleQuery` around the awaited engine call:
a returned value is framed as `query_result`, a thrown error goes
through `#sendError` (lines 641-652). -/
def serverHandle (engineCall : Except String JVal) (query : String) : Frame :=
  match engineCall with
  | .ok result => .queryResult result query
  | .error msg => .error ("Query error: " ++ msg)

/-- The local-execution path of `#handleQuery`: `db.query` is a plain
return value (`engineRun` is total), so the awaited call never throws. -/
def handleQueryLocal (exec : Except String JVal) (query : String) : Frame :=
  serverHandle (.ok (engineRun exec)) query

/-- **C9, counterexample.**  A failing statement (here: an INSERT into a
missing table) reaches the client as a `query_result` frame whose
`result` is the `Error: ...` string — not as an `{type: 'error'}`
frame, contrary to the claim. -/
theorem c9_error_frame_refuted :
    handleQueryLocal (.error "Kebun 't' tidak ditemukan.") "TANAM KE t (x) NILAI (1)"
      = Frame.queryResult (.str "Error: Kebun 't' tidak ditemukan.")
          "TANAM KE t (x) NILAI (1)"
    ∧ handleQueryLocal (.error "Kebun 't' tidak ditemukan.") "TANAM KE t (x) NILAI (1)"
        ≠ Frame.error "Kebun 't' tidak ditemukan." := by
  exact ⟨rfl, by decide⟩

/-- **C9, amended.**  The executor does return errors as values: a
failing statement becomes the string `"Error: <message>"` (1), and the
dispatch layer forwards it to the client inside a `query_result` frame
(2); every engine return value is framed as `query_result` (3), and the
`{type: 'error', error}` frame is produced exactly when the awaited
server-level call itself throws (4). -/
theorem c9_error_value_propagation :
    (∀ m, engineRun (.error m) = .str ("Error: " ++ m))
    ∧ (∀ m q, handleQueryLocal (.error m) q
        = Frame.queryResult (.str ("Error: " ++ m)) q)
    ∧ (∀ r q, serverHandle (.ok r) q = Frame.queryResult r q)
    ∧ (∀ m q, serverHandle (.error m) q = Frame.error ("Query error: " ++ m)) :=
  ⟨fun _ => rfl, fun _ _ => rfl, fun _ _ => rfl, fun _ _ => rfl⟩
